import Mathlib

/-!
Verification of the NodeNormalization repository: a shallow embedding of the
identifier classifier (scripts/id_mapping.py), the entity merge engine
(scripts/combine_normalized_databases.py) and the quality/statistics reporter
(scripts/combine_normalized_databases.py, scripts/validate_combined_data.py),
together with theorems settling the specification claims.

Modelling conventions:
* Python dicts become insertion-ordered association lists `List (String × _)`;
  key lookup is first-match, and assignment to an existing key keeps its
  position (as in CPython 3.7+ dicts).
* Python `KeyError` on a missing JSON field becomes `Except.error`.
* Python floats become `ℚ`.
* Python `set` objects whose iteration order is never observed become `Finset`;
  `list(set(xs))` results, whose order CPython leaves unspecified, are modelled
  with `List.dedup` (membership-equivalent).
-/

set_option linter.unusedVariables false

namespace NodeNorm

/-- One entry of an `equivalent_identifiers` JSON list: a pair of an
identifier string and a label string. -/
structure EquivId where
  identifier : String
  label : String
deriving DecidableEq, Repr

/-- The nested `id` object of a persisted entity record.  Fields are `Option`
because the Python code reads them from an untyped JSON dict (a missing key
raises `KeyError`). -/
structure RawId where
  identifier : Option String
  label : Option String
deriving DecidableEq, Repr

/-- A persisted entity record as read from a normalized JSON file, before the
merge engine turns it into a `NormalizedEntity`.  Each field is `Option`
because the Python code accesses the underlying dict by key. -/
structure RawEntity where
  id : Option RawId
  equivalent_identifiers : Option (List EquivId)
  type : Option (List String)
deriving DecidableEq, Repr

/-- The `NormalizedEntity` dataclass of combine_normalized_databases.py. -/
structure NormalizedEntity where
  identifier : String
  label : String
  equivalent_identifiers : List EquivId
  types : List String
  source_databases : Finset String
  confidence_score : Option ℚ := none
deriving DecidableEq

/-! ## Identifier classifier (scripts/id_mapping.py) -/

/-- Whitespace test used to model Python `str.strip()`. -/
def isWS (c : Char) : Bool :=
  c == ' ' || c == '\t' || c == '\n' || c == '\r'

/-- Strip whitespace from both ends of a character list (Python `str.strip`). -/
def pyStripChars (l : List Char) : List Char :=
  ((l.dropWhile isWS).reverse.dropWhile isWS).reverse

/-- Python `str.strip()`. -/
def pyStrip (s : String) : String :=
  String.mk (pyStripChars s.data)

/-- Character-wise upper-casing, modelling Python `str.upper()` on ASCII. -/
def pyUpperChars (l : List Char) : List Char :=
  l.map Char.toUpper

/-- Python `str.upper()`. -/
def pyUpper (s : String) : String :=
  String.mk (pyUpperChars s.data)

/-- The fixed allow-list `valid_prefixes` of map_to_curie_with_source. -/
def valid_prefixes : List String :=
  ["NCBIGene", "DRUGBANK", "CHEMBL.COMPOUND", "PUBCHEM.COMPOUND",
   "GO", "UBERON", "REACTOME", "MONDO", "UMLS", "HP", "MESH",
   "OMIM", "DOID", "SNOMEDCT", "NCIT", "HGNC", "UNIPROT", "CTD"]

/-- The fixed source-to-namespace dict of map_to_curie_with_source
(`source_to_prefix` in the source), modelled as Python `dict.get`. -/
def sourcePrefixTable (s : String) : Option String :=
  if s = "NCBI" then some "NCBIGene"
  else if s = "DrugBank" then some "DRUGBANK"
  else if s = "GO" then some "GO"
  else if s = "UBERON" then some "UBERON"
  else if s = "REACTOME" then some "REACTOME"
  else if s = "MONDO" then some "MONDO"
  else if s = "MONDO_grouped" then some "MONDO"
  else if s = "HPO" then some "HP"
  else if s = "CTD" then some "CTD"
  else none

/-- Rules 2-4 of the classifier: look the (stripped) source tag up in the
source table; on a hit return `"{namespace}:{rawId}"`, otherwise Unmapped. -/
def mapViaSource (nid nsrc : String) : Option String :=
  match sourcePrefixTable nsrc with
  | some p => some (p ++ ":" ++ nid)
  | none => none

/-- The classifier `map_to_curie_with_source` of scripts/id_mapping.py.
Inputs are stripped; if the raw id contains a `:` and its namespace,
upper-cased, is literally in `valid_prefixes`, the whole raw id is returned
upper-cased (`node_id.upper()` in the source); otherwise the source table is
consulted.  `none` models Python `None` (Unmapped). -/
def map_to_curie_with_source (node_id node_type node_name node_source : String) :
    Option String :=
  if ':' ∈ (pyStrip node_id).data then
    if String.mk (pyUpperChars ((pyStrip node_id).data.takeWhile (fun c => c != ':')))
        ∈ valid_prefixes then
      some (pyUpper (pyStrip node_id))
    else mapViaSource (pyStrip node_id) (pyStrip node_source)
  else mapViaSource (pyStrip node_id) (pyStrip node_source)

/-- The spec's CURIE pattern `^[A-Za-z.]+:.+$` as a decidable predicate:
a nonempty namespace of letters and dots, a colon, and a nonempty remainder. -/
def isCuriePattern (s : String) : Bool :=
  (!(s.data.takeWhile (fun c => c != ':')).isEmpty)
    && (s.data.takeWhile (fun c => c != ':')).all (fun c => c.isAlpha || c == '.')
    && decide (':' ∈ s.data)
    && (!((s.data.dropWhile (fun c => c != ':')).drop 1).isEmpty)

/-- The weakened pattern `^[A-Za-z.]+:.*$`: like `isCuriePattern` but the part
after the colon may be empty. -/
def isLooseCurie (s : String) : Bool :=
  (!(s.data.takeWhile (fun c => c != ':')).isEmpty)
    && (s.data.takeWhile (fun c => c != ':')).all (fun c => c.isAlpha || c == '.')
    && decide (':' ∈ s.data)

/-! ## Entity merge engine (scripts/combine_normalized_databases.py) -/

/-- Keys of an association list (a Python dict's key view). -/
def keys {α : Type} (m : List (String × α)) : List String :=
  m.map Prod.fst

/-- First-match lookup in an association list (Python `d[k]` / `k in d`). -/
def findVal {α : Type} : List (String × α) → String → Option α
  | [], _ => none
  | p :: rest, k => if p.1 = k then some p.2 else findVal rest k

/-- Python dict assignment `d[k] = v`: an existing key keeps its position and
gets the new value, a new key is appended at the end. -/
def dictInsert {α : Type} (m : List (String × α)) (k : String) (v : α) :
    List (String × α) :=
  if k ∈ keys m then m.map (fun p => if p.1 = k then (k, v) else p)
  else m ++ [(k, v)]

/-- Python dict access `d[field]`: a missing key raises `KeyError field`. -/
def getField {α : Type} (x : Option α) (field : String) : Except String α :=
  match x with
  | some v => Except.ok v
  | none => Except.error field

/-- The method `create_entity_from_normalized`: builds a `NormalizedEntity`
from a raw record, accessing `id.identifier`, `id.label`,
`equivalent_identifiers` and `type` (each access may raise), and seeding
`source_databases` with the given source name. -/
def create_entity_from_normalized (e : RawEntity) (source_db : String) :
    Except String NormalizedEntity := do
  let idObj ← getField e.id "id"
  let ident ← getField idObj.identifier "identifier"
  let lab ← getField idObj.label "label"
  let eqs ← getField e.equivalent_identifiers "equivalent_identifiers"
  let tys ← getField e.type "type"
  return { identifier := ident, label := lab, equivalent_identifiers := eqs,
           types := tys, source_databases := {source_db},
           confidence_score := none }

/-- The shared equivalent-identifier merge loop: the set of identifiers
already present is computed once from the left list, then every right-hand
entry whose identifier is not in that set is appended (in right-hand order;
duplicates within the right-hand list are each appended). -/
def mergeEquivIds (l r : List EquivId) : List EquivId :=
  l ++ r.filter (fun e => decide (e.identifier ∉ l.map (fun x => x.identifier)))

/-- The shared type merge `list(set(a + b))`; CPython leaves the resulting
order unspecified, modelled here by `List.dedup`. -/
def mergeTypes (a b : List String) : List String :=
  (a ++ b).dedup

/-- The overlap branch of `union_merge`: add "SemMed" to the sources, merge
the type lists and extend the equivalent identifiers with the raw SemMed
record's entries (reading `type` and `equivalent_identifiers` from the raw
dict, which may raise). -/
def mergeInto (existing : NormalizedEntity) (e : RawEntity) :
    Except String NormalizedEntity := do
  let tys ← getField e.type "type"
  let eqs ← getField e.equivalent_identifiers "equivalent_identifiers"
  return { existing with
           source_databases := insert "SemMed" existing.source_databases,
           types := mergeTypes existing.types tys,
           equivalent_identifiers := mergeEquivIds existing.equivalent_identifiers eqs }

/-- Phase 1 of `union_merge` (and the whole of its PrimeKG loop): create one
entity per raw record and store it under its key. -/
def addEntities (src : String) (acc : List (String × NormalizedEntity)) :
    List (String × RawEntity) → Except String (List (String × NormalizedEntity))
  | [] => Except.ok acc
  | (k, r) :: rest => do
      let e ← create_entity_from_normalized r src
      addEntities src (dictInsert acc k e) rest

/-- One iteration of the SemMed loop of `union_merge`: merge on key
collision, insert a fresh entity otherwise. -/
def mergeSemStep (acc : List (String × NormalizedEntity)) (k : String) (r : RawEntity) :
    Except String (List (String × NormalizedEntity)) :=
  match findVal acc k with
  | some existing => do
      let merged ← mergeInto existing r
      return dictInsert acc k merged
  | none => do
      let e ← create_entity_from_normalized r "SemMed"
      return dictInsert acc k e

/-- Phase 2 of `union_merge`: fold the SemMed records in. -/
def mergeSemMed (acc : List (String × NormalizedEntity)) :
    List (String × RawEntity) → Except String (List (String × NormalizedEntity))
  | [] => Except.ok acc
  | (k, r) :: rest => do
      let acc2 ← mergeSemStep acc k r
      mergeSemMed acc2 rest

/-- Strategy 1, `union_merge`: all PrimeKG entities, then the SemMed entities
folded in. -/
def union_merge (pk sm : List (String × RawEntity)) :
    Except String (List (String × NormalizedEntity)) := do
  let base ← addEntities "PrimeKG" [] pk
  mergeSemMed base sm

/-- One entity of `intersection_merge`: the PrimeKG record is the base, with
"SemMed" added to the sources and the SemMed record's types and equivalent
identifiers merged in. -/
def intersectOne (pkr smr : RawEntity) : Except String NormalizedEntity := do
  let e ← create_entity_from_normalized pkr "PrimeKG"
  let tys ← getField smr.type "type"
  let eqs ← getField smr.equivalent_identifiers "equivalent_identifiers"
  return { e with
           source_databases := insert "SemMed" e.source_databases,
           types := mergeTypes e.types tys,
           equivalent_identifiers := mergeEquivIds e.equivalent_identifiers eqs }

/-- One iteration of `intersection_merge`: a PrimeKG key present in SemMed
is merged and stored, any other key is skipped. -/
def interStep (sm : List (String × RawEntity)) (acc : List (String × NormalizedEntity))
    (k : String) (r : RawEntity) : Except String (List (String × NormalizedEntity)) :=
  match findVal sm k with
  | some smr => do
      let e ← intersectOne r smr
      return dictInsert acc k e
  | none => Except.ok acc

/-- The loop of `intersection_merge`.  The source iterates over the Python
set `common_ids` (unspecified order); we iterate over the PrimeKG keys and
keep those present in SemMed, a deterministic choice of that order. -/
def interGo (sm : List (String × RawEntity)) (acc : List (String × NormalizedEntity)) :
    List (String × RawEntity) → Except String (List (String × NormalizedEntity))
  | [] => Except.ok acc
  | (k, r) :: rest => do
      let acc2 ← interStep sm acc k r
      interGo sm acc2 rest

/-- Strategy 2, `intersection_merge`: only keys present in both inputs. -/
def intersection_merge (pk sm : List (String × RawEntity)) :
    Except String (List (String × NormalizedEntity)) :=
  interGo sm [] pk

/-- The method `_calculate_confidence`: base weight plus a capped equivalent
identifier bonus, a capped type bonus, and a source bonus, upper-clamped to 1
by `min` (there is no lower clamp in the source). -/
def calculate_confidence (e : NormalizedEntity) (source_db : String) (weight : ℚ) : ℚ :=
  min 1 (weight + min (2/10 : ℚ) ((e.equivalent_identifiers.length : ℚ) * (5/100))
    + min (1/10 : ℚ) ((e.types.length : ℚ) * (1/100))
    + (if source_db = "PrimeKG" then (1/10 : ℚ) else 5/100))

/-- The stored confidence score of an entity, read back as the Python float
comparison does (`none` never occurs on the compared paths). -/
def scoreOf (e : NormalizedEntity) : ℚ :=
  e.confidence_score.getD 0

/-- Phase 1 of `confidence_based_merge`: every PrimeKG entity is created and
scored with the PrimeKG weight. -/
def confPhase1 (w : ℚ) (acc : List (String × NormalizedEntity)) :
    List (String × RawEntity) → Except String (List (String × NormalizedEntity))
  | [] => Except.ok acc
  | (k, r) :: rest => do
      let e ← create_entity_from_normalized r "PrimeKG"
      confPhase1 w (dictInsert acc k
        { e with confidence_score := some (calculate_confidence e "PrimeKG" w) }) rest

/-- The keep branch of `confidence_based_merge` (tie or lower score): the
existing entity is enriched with the loser's sources, types and new
equivalent identifiers, keeping its own score. -/
def confKeep (ex ne : NormalizedEntity) : NormalizedEntity :=
  { ex with
    source_databases := insert "SemMed" ex.source_databases,
    types := mergeTypes ex.types ne.types,
    equivalent_identifiers := mergeEquivIds ex.equivalent_identifiers ne.equivalent_identifiers }

/-- One iteration of the SemMed loop of `confidence_based_merge`: the SemMed
entity is created and scored with weight `1 - w`; on collision a strictly
higher score replaces the existing entity (inheriting the union of both
source sets), otherwise the existing entity is kept and enriched. -/
def confStep (w : ℚ) (acc : List (String × NormalizedEntity)) (k : String) (r : RawEntity) :
    Except String (List (String × NormalizedEntity)) :=
  match findVal acc k with
  | some ex => do
      let e ← create_entity_from_normalized r "SemMed"
      let ne := { e with confidence_score := some (calculate_confidence e "SemMed" (1 - w)) }
      if scoreOf ex < scoreOf ne then
        return dictInsert acc k { ne with source_databases := ex.source_databases ∪ {"SemMed"} }
      else
        return dictInsert acc k (confKeep ex ne)
  | none => do
      let e ← create_entity_from_normalized r "SemMed"
      return dictInsert acc k
        { e with confidence_score := some (calculate_confidence e "SemMed" (1 - w)) }

/-- Phase 2 of `confidence_based_merge`: fold the SemMed records in. -/
def confPhase2 (w : ℚ) (acc : List (String × NormalizedEntity)) :
    List (String × RawEntity) → Except String (List (String × NormalizedEntity))
  | [] => Except.ok acc
  | (k, r) :: rest => do
      let acc2 ← confStep w acc k r
      confPhase2 w acc2 rest

/-- Strategy 3, `confidence_based_merge` with PrimeKG weight `w`. -/
def confidence_based_merge (pk sm : List (String × RawEntity)) (w : ℚ) :
    Except String (List (String × NormalizedEntity)) := do
  let base ← confPhase1 w [] pk
  confPhase2 w base sm

/-- The static `type_hierarchy` ranking of `type_based_merge`. -/
def type_hierarchy : List (String × Nat) :=
  [("biolink:Gene", 10), ("biolink:Protein", 9), ("biolink:ChemicalEntity", 8),
   ("biolink:AnatomicalEntity", 7), ("biolink:Disease", 6),
   ("biolink:OrganismTaxon", 5), ("biolink:NamedThing", 1)]

/-- The inner loop of `get_type_priority`: for every hierarchy entry whose
name is a string prefix of the given type (`str.startswith`), the running
maximum is updated. -/
def typeStep (acc : Nat) (t : String) : Nat :=
  type_hierarchy.foldl
    (fun acc2 p => if p.1.data.isPrefixOf t.data then max acc2 p.2 else acc2) acc

/-- The nested loop of `get_type_priority`: the maximum hierarchy priority
matched by any of the entity's types (0 when none matches). -/
def get_type_priority (types : List String) : Nat :=
  types.foldl typeStep 0

/-- Build the scored entity list of one source inside `type_based_merge`:
each entity's `confidence_score` is set to its integer type priority. -/
def buildScored (src : String) :
    List (String × RawEntity) → Except String (List (String × NormalizedEntity))
  | [] => Except.ok []
  | (k, r) :: rest => do
      let e ← create_entity_from_normalized r src
      let rest2 ← buildScored src rest
      return (k, { e with confidence_score := some ((get_type_priority e.types : ℚ)) }) :: rest2

/-- Python `max(entities, key=...)`: scan left to right, replacing the current
best only on a strictly higher key, so the first maximum wins ties. -/
def pickBest : NormalizedEntity → List NormalizedEntity → NormalizedEntity
  | b, [] => b
  | b, e :: rest => if scoreOf b < scoreOf e then pickBest e rest else pickBest b rest

/-- First-occurrence deduplication: key order of a `defaultdict` filled by
appending groups (first insertion fixes the position). -/
def firstOccs (l : List String) : List String :=
  (l.reverse.dedup).reverse

/-- The group representative of `type_based_merge` for a group with at least
two members: the first entity with the maximal stored priority, with every
group member's source set unioned in. -/
def mkRep (e : NormalizedEntity) (rest : List NormalizedEntity) : NormalizedEntity :=
  let best := pickBest e rest
  { best with source_databases :=
      (e :: rest).foldl (fun s x => s ∪ x.source_databases) best.source_databases }

/-- The group of a key: all scored entities of both sources carrying that
identifier, in PrimeKG-then-SemMed source order and input enumeration order. -/
def groupOf (all : List (String × NormalizedEntity)) (k : String) :
    List NormalizedEntity :=
  (all.filter (fun p => decide (p.1 = k))).map Prod.snd

/-- Strategy 4, `type_based_merge`: score both sources' entities by type
priority, group by identifier (PrimeKG entities first, then SemMed, in input
enumeration order), and keep the best entity of each group with the sources
unioned.  A singleton group keeps its entity unchanged; the empty-group
branch of the match is unreachable for keys drawn from the list. -/
def type_based_merge (pk sm : List (String × RawEntity)) :
    Except String (List (String × NormalizedEntity)) := do
  let pkE ← buildScored "PrimeKG" pk
  let smE ← buildScored "SemMed" sm
  let all := pkE ++ smE
  return (firstOccs (keys all)).filterMap (fun k =>
    match groupOf all k with
    | [] => none
    | [e] => some (k, e)
    | e :: rest => some (k, mkRep e rest))

/-! ## Quality/statistics reporter -/

/-- The statistics record produced by `generate_statistics`; the counter
dicts (`defaultdict(int)`) are modelled as total functions with default 0. -/
structure CombineStats where
  total_entities : Nat
  entities_by_source : String → Nat
  entities_by_type : String → Nat
  entities_with_multiple_sources : Nat
  average_equivalent_identifiers : ℚ
  type_distribution : String → Nat

/-- The base type of a type tag: `t.split(":")[1] if ":" in t else t`. -/
def baseTypeOf (t : String) : String :=
  if ':' ∈ t.data then
    String.mk (((t.data.dropWhile (fun c => c != ':')).drop 1).takeWhile (fun c => c != ':'))
  else t

/-- The method `generate_statistics`: a pure pass over the merged map.  The
mean equivalent-identifier count is explicitly 0 on an empty map
(`... if combined_data else 0`), so the function is total and never divides
by zero. -/
def generate_statistics (m : List (String × NormalizedEntity)) : CombineStats :=
  { total_entities := m.length,
    entities_by_source := fun s =>
      (m.filter (fun p => decide (s ∈ p.2.source_databases))).length,
    entities_by_type := fun t =>
      (m.map (fun p => (p.2.types.filter (fun u => decide (u = t))).length)).sum,
    entities_with_multiple_sources :=
      (m.filter (fun p => decide (1 < p.2.source_databases.card))).length,
    average_equivalent_identifiers :=
      if m.length = 0 then 0
      else ((m.map (fun p => (p.2.equivalent_identifiers.length : ℚ))).sum) / (m.length : ℚ),
    type_distribution := fun bt =>
      (m.map (fun p => (p.2.types.filter (fun u => decide (baseTypeOf u = bt))).length)).sum }

/-! ## Validators (scripts/validate_combined_data.py) -/

/-- The issue messages of `check_identifier_consistency`: the map key must
equal `id.identifier`, and the key must appear among the record's own
equivalent identifiers.  (All guards follow the source's `in` checks; message
text follows the source's f-strings, with no-apostrophe wording.) -/
def check_identifier_consistency (data : List (String × RawEntity)) : List String :=
  data.foldr
    (fun p issues =>
      let first : List String :=
        match p.2.id with
        | some i =>
            match i.identifier with
            | some mid =>
                if p.1 ≠ mid then
                  ["Entity key " ++ p.1 ++ " does not match id.identifier " ++ mid]
                else []
            | none => []
        | none => []
      let second : List String :=
        match p.2.equivalent_identifiers with
        | some eqs =>
            if p.1 ∈ eqs.map (fun e => e.identifier) then []
            else ["Entity " ++ p.1 ++ " not found in its own equivalent_identifiers"]
        | none => []
      first ++ second ++ issues)
    []

/-- Append one claim of an identifier by an entity key to the
`identifier_to_entities` table (a `defaultdict(list)`). -/
def bumpTable (t : List (String × List String)) (ident k : String) :
    List (String × List String) :=
  if ident ∈ keys t then t.map (fun p => if p.1 = ident then (p.1, p.2 ++ [k]) else p)
  else t ++ [(ident, [k])]

/-- The table-building loop of `check_duplicate_identifiers`: every entity
key is appended once for its main `id.identifier` and once for every entry of
its `equivalent_identifiers` (no per-entity deduplication in the source). -/
def dupPass (t : List (String × List String)) :
    List (String × RawEntity) → List (String × List String)
  | [] => t
  | (k, r) :: rest =>
      let t1 :=
        match r.id with
        | some i =>
            match i.identifier with
            | some mid => bumpTable t mid k
            | none => t
        | none => t
      let t2 :=
        match r.equivalent_identifiers with
        | some eqs => eqs.foldl (fun tt e => bumpTable tt e.identifier k) t1
        | none => t1
      dupPass t2 rest

/-- The function `check_duplicate_identifiers`: every identifier whose claim
list has length above one is reported together with that (multiplicity
preserving) list of entity keys.  The source renders each pair as an f-string
issue message; the data content is kept here. -/
def check_duplicate_identifiers (data : List (String × RawEntity)) :
    List (String × List String) :=
  (dupPass [] data).filter (fun p => decide (1 < p.2.length))

/-! ## Aliasing effect of the merge on its left input

`create_entity_from_normalized` stores the raw dict's `equivalent_identifiers`
list itself (not a copy) in the dataclass, so the in-place `append` calls of
the overlap branches extend the raw input record's list.  `types` is rebound
(`list(set(...))`) and `source_databases` is a fresh set, so nothing else in
the input is written. -/

/-- The state of one left-hand (PrimeKG) record after a successful
`union_merge` run: on a key collision its `equivalent_identifiers` list has
been extended in place by the shared-list appends; otherwise it is untouched. -/
def leftAfterOne (sm : List (String × RawEntity)) (p : String × RawEntity) :
    String × RawEntity :=
  match findVal sm p.1 with
  | some b =>
      match p.2.equivalent_identifiers, b.equivalent_identifiers with
      | some l, some r =>
          (p.1, { p.2 with equivalent_identifiers := some (mergeEquivIds l r) })
      | _, _ => p
  | none => p

/-- The whole left (PrimeKG) input map after a successful `union_merge` run. -/
def union_merge_left_after (pk sm : List (String × RawEntity)) :
    List (String × RawEntity) :=
  pk.map (leftAfterOne sm)

/-! ## Concrete inputs used by counterexamples and witnesses -/

/-- Build a complete raw record from its parts. -/
def mkRaw (i l : String) (eqs : List EquivId) (tys : List String) : RawEntity :=
  { id := some { identifier := some i, label := some l },
    equivalent_identifiers := some eqs, type := some tys }

/-- A single self-consistent entity map: the key equals `id.identifier` and
appears among its own equivalent identifiers. -/
def c9Data : List (String × RawEntity) :=
  [("A:1", mkRaw "A:1" "alpha" [{ identifier := "A:1", label := "alpha" }] ["biolink:Gene"])]

/-- Left input of the mutation counterexample. -/
def c2pk : List (String × RawEntity) :=
  [("A:1", mkRaw "A:1" "alpha" [{ identifier := "A:1", label := "alpha" }] ["biolink:Gene"])]

/-- Right input of the mutation counterexample: same key, one extra
equivalent identifier. -/
def c2sm : List (String × RawEntity) :=
  [("A:1", mkRaw "A:1" "alpha"
      [{ identifier := "A:1", label := "alpha" }, { identifier := "B:2", label := "beta" }]
      ["biolink:Protein"])]

/-- A raw record whose required `type` field is missing. -/
def c3NoType : RawEntity :=
  { id := some { identifier := some "X:1", label := some "x" },
    equivalent_identifiers := some [{ identifier := "X:1", label := "x" }],
    type := none }

/-- A map containing the record with the missing `type` field. -/
def c3pk : List (String × RawEntity) := [("X:1", c3NoType)]

/-- A raw record whose `id` object is missing but whose other fields are
present. -/
def c3smNoId : RawEntity :=
  { id := none,
    equivalent_identifiers :=
      some [{ identifier := "Y:1", label := "y" }, { identifier := "Z:9", label := "z" }],
    type := some ["biolink:Protein"] }

/-- A complete left map sharing its key with the id-less right record. -/
def c3pk2 : List (String × RawEntity) :=
  [("Y:1", mkRaw "Y:1" "y" [{ identifier := "Y:1", label := "y" }] ["biolink:Gene"])]

/-- The right map holding the id-less record under the colliding key. -/
def c3sm2 : List (String × RawEntity) := [("Y:1", c3smNoId)]

/-- Left input of the size-law witness: two entities. -/
def c6pk : List (String × RawEntity) :=
  [("A:1", mkRaw "A:1" "a" [{ identifier := "A:1", label := "a" }] ["biolink:Gene"]),
   ("B:2", mkRaw "B:2" "b" [{ identifier := "B:2", label := "b" }] ["biolink:Disease"])]

/-- Right input of the size-law witness: two entities, one key shared. -/
def c6sm : List (String × RawEntity) :=
  [("B:2", mkRaw "B:2" "b" [{ identifier := "B:2", label := "b" }] ["biolink:Protein"]),
   ("C:3", mkRaw "C:3" "c" [{ identifier := "C:3", label := "c" }] ["biolink:NamedThing"])]

/-- Left input of the type-priority witness: a NamedThing-typed entity. -/
def c8pk : List (String × RawEntity) :=
  [("X:1", mkRaw "X:1" "x" [{ identifier := "X:1", label := "x" }] ["biolink:NamedThing"])]

/-- Right input of the type-priority witness: a Gene-typed entity with the
same key. -/
def c8sm : List (String × RawEntity) :=
  [("X:1", mkRaw "X:1" "x" [{ identifier := "X:1", label := "x" }] ["biolink:Gene"])]

/-- The scored left entity list (priority 1). -/
def c8pkE : List (String × NormalizedEntity) :=
  [("X:1", { identifier := "X:1", label := "x",
             equivalent_identifiers := [{ identifier := "X:1", label := "x" }],
             types := ["biolink:NamedThing"], source_databases := {"PrimeKG"},
             confidence_score := some ((1 : Nat) : ℚ) })]

/-- The scored right entity list (priority 10). -/
def c8smE : List (String × NormalizedEntity) :=
  [("X:1", { identifier := "X:1", label := "x",
             equivalent_identifiers := [{ identifier := "X:1", label := "x" }],
             types := ["biolink:Gene"], source_databases := {"SemMed"},
             confidence_score := some ((10 : Nat) : ℚ) })]

/-- A single Gene-typed entity map (type priority 10). -/
def c4pk : List (String × RawEntity) :=
  [("G:1", mkRaw "G:1" "g" [{ identifier := "G:1", label := "g" }] ["biolink:Gene"])]

/-- The entity `type_based_merge` produces from `c4pk`: its
`confidence_score` holds the integer type priority 10. -/
def c4ent : NormalizedEntity :=
  { identifier := "G:1", label := "g",
    equivalent_identifiers := [{ identifier := "G:1", label := "g" }],
    types := ["biolink:Gene"], source_databases := {"PrimeKG"},
    confidence_score := some 10 }

/-! ## Claim C10 -/

/-- C10 (confirmed): on an empty merged map `generate_statistics` is total
(no division is attempted: the mean is defined as 0 when there are no
entities) and returns `total_entities = 0` and
`average_equivalent_identifiers = 0`. -/
theorem c10_empty_statistics :
    (generate_statistics []).total_entities = 0 ∧
    (generate_statistics []).average_equivalent_identifiers = 0 :=
  ⟨rfl, rfl⟩

/-! ## Claim C9 -/

/-- C9 (code_bug): a single entity whose key appears both as its
`id.identifier` and inside its own `equivalent_identifiers` — exactly what
`check_identifier_consistency` demands — is reported by
`check_duplicate_identifiers` as a duplicate, with its own key listed twice,
although only one distinct entity claims the identifier. -/
theorem c9_self_entity_reported_as_duplicate :
    check_duplicate_identifiers c9Data = [("A:1", ["A:1", "A:1"])] ∧
    check_identifier_consistency c9Data = [] :=
  ⟨rfl, rfl⟩

/-! ## Claim C2: counterexample and left-input frame theorem -/

/-- C2 counterexample: the union merge succeeds on these two overlapping
one-entity maps, yet afterwards the left input is not equal to its original
state — its record's `equivalent_identifiers` list was extended in place. -/
theorem c2_counterexample :
    (union_merge c2pk c2sm).isOk = true ∧
    union_merge_left_after c2pk c2sm ≠ c2pk := by
  refine ⟨rfl, ?_⟩
  decide

/-- C2 (corrected): after a union merge every left-hand input record keeps
its key, its `id` object and its `type` list, and its
`equivalent_identifiers` list is either unchanged or extended in place (the
original entries stay a prefix); the inputs are not byte-for-byte unchanged
in general. -/
theorem c2_left_input_frame (pk sm : List (String × RawEntity)) :
    List.Forall₂
      (fun p q : String × RawEntity =>
        q.1 = p.1 ∧ q.2.id = p.2.id ∧ q.2.type = p.2.type ∧
          (q.2.equivalent_identifiers = p.2.equivalent_identifiers ∨
            ∃ l ext, p.2.equivalent_identifiers = some l ∧
              q.2.equivalent_identifiers = some (l ++ ext)))
      pk (union_merge_left_after pk sm) := by
  induction pk with
  | nil => exact List.Forall₂.nil
  | cons p rest ih =>
      refine List.Forall₂.cons ?_ ih
      unfold leftAfterOne
      cases hb : findVal sm p.1 with
      | none => exact ⟨rfl, rfl, rfl, Or.inl rfl⟩
      | some b =>
          dsimp only
          cases hl : p.2.equivalent_identifiers with
          | none =>
              cases hr : b.equivalent_identifiers with
              | none => exact ⟨rfl, rfl, rfl, Or.inl hl⟩
              | some r => exact ⟨rfl, rfl, rfl, Or.inl hl⟩
          | some l =>
              cases hr : b.equivalent_identifiers with
              | none => exact ⟨rfl, rfl, rfl, Or.inl hl⟩
              | some r =>
                  exact ⟨rfl, rfl, rfl, Or.inr ⟨l, _, rfl, rfl⟩⟩

/-! ## Claim C3: counterexample -/

/-- A raw record lacks one of the required fields `id.identifier`,
`equivalent_identifiers` or `type`. -/
def missingRequired (r : RawEntity) : Prop :=
  r.id = none ∨ (∃ i, r.id = some i ∧ i.identifier = none) ∨
    r.equivalent_identifiers = none ∨ r.type = none

/-- C3 counterexample: a record missing its `type` field makes the whole
union merge raise (`KeyError` in the source, `Except.error` here); the
entity is not excluded, no issue is recorded, and the merge of the remaining
entities does not complete. -/
theorem c3_counterexample : union_merge c3pk [] = Except.error "type" := rfl

/-! ## Claims C4, C1, C5: counterexamples -/

/-- C4 counterexample: the type-priority merge of a single Gene-typed entity
succeeds, and the output entity carries `confidence_score = some 10` — a set
score outside the interval [0,1]. -/
theorem c4_counterexample :
    (type_based_merge c4pk []).toOption = some [("G:1", c4ent)] ∧
    c4ent.confidence_score = some 10 ∧ ¬ ((10 : ℚ) ≤ 1) := by
  refine ⟨rfl, rfl, by norm_num⟩

/-- C1 counterexample: the empty raw id with the mapped source tag "NCBI"
is classified as "NCBIGene:", which is neither Unmapped nor a match of the
CURIE pattern (its local part is empty) — the claim fails both on "empty
yields Unmapped" and on the returned-shape alternative. -/
theorem c1_counterexample :
    map_to_curie_with_source "" "" "" "NCBI" = some "NCBIGene:" ∧
    isCuriePattern "NCBIGene:" = false :=
  ⟨rfl, rfl⟩

/-- C5 counterexample: a lower-case raw CURIE is returned fully upper-cased
("drugbank:db001" becomes "DRUGBANK:DB001"), not with only the namespace
upper-cased and the local part unchanged (which would be "DRUGBANK:db001"). -/
theorem c5_counterexample :
    map_to_curie_with_source "drugbank:db001" "" "" "NCBI" = some "DRUGBANK:DB001" ∧
    ("DRUGBANK:DB001" : String) ≠ "DRUGBANK:db001" :=
  ⟨rfl, by decide⟩

/-! ## Claim C5: amended rule-1 theorem -/

/-- C5 (corrected): when the stripped raw id contains a colon and its
namespace part, upper-cased, is literally in the allow-list, the classifier
returns the whole stripped raw id upper-cased (namespace and local part
both), and this holds for every source tag — rule 1 takes priority over the
source table. -/
theorem c5_rule1_full_uppercase (node_id node_type node_name node_source : String)
    (h1 : ':' ∈ (pyStrip node_id).data)
    (h2 : String.mk (pyUpperChars ((pyStrip node_id).data.takeWhile (fun c => c != ':')))
      ∈ valid_prefixes) :
    map_to_curie_with_source node_id node_type node_name node_source =
      some (pyUpper (pyStrip node_id)) := by
  unfold map_to_curie_with_source
  rw [if_pos h1, if_pos h2]

/-- Witness for the amended C5 theorem: the spec's own scenario — the
already-CURIE raw id wins over the source table. -/
theorem c5_rule1_full_uppercase_witness :
    (':' ∈ (pyStrip "DRUGBANK:DB001").data ∧
      String.mk (pyUpperChars ((pyStrip "DRUGBANK:DB001").data.takeWhile (fun c => c != ':')))
        ∈ valid_prefixes) ∧
    map_to_curie_with_source "DRUGBANK:DB001" "" "" "NCBI" = some "DRUGBANK:DB001" :=
  ⟨⟨by decide, by decide⟩,
    c5_rule1_full_uppercase "DRUGBANK:DB001" "" "" "NCBI" (by decide) (by decide)⟩

/-! ## Claim C1: totality and result shape -/

/-- Helper: taking while a predicate holds stops exactly at the first
element that falsifies it. -/
theorem takeWhile_append_cons (p : Char → Bool) (l₁ l₂ : List Char)
    (h₁ : ∀ c ∈ l₁, p c = true) (c : Char) (hc : p c = false) :
    (l₁ ++ c :: l₂).takeWhile p = l₁ := by
  induction l₁ with
  | nil => simp [List.takeWhile_cons, hc]
  | cons a l ih =>
      have ha : p a = true := h₁ a (List.mem_cons_self a l)
      simp only [List.cons_append, List.takeWhile_cons, ha, if_true]
      rw [ih (fun x hx => h₁ x (List.mem_cons_of_mem a hx))]

/-- Helper: a list containing a colon splits as its colon-free prefix (in the
`takeWhile` sense), the first colon, and a remainder. -/
theorem exists_split_at_colon (l : List Char) (h : ':' ∈ l) :
    ∃ suf, l = l.takeWhile (fun c => c != ':') ++ ':' :: suf := by
  induction l with
  | nil => cases h
  | cons a l ih =>
      by_cases ha : a = ':'
      · subst ha
        exact ⟨l, by simp [List.takeWhile_cons]⟩
      · have h' : ':' ∈ l := by
          rcases List.mem_cons.mp h with h1 | h1
          · exact absurd h1.symm ha
          · exact h1
        obtain ⟨suf, hs⟩ := ih h'
        refine ⟨suf, ?_⟩
        have ha' : (a != ':') = true := by simpa using ha
        simp only [List.takeWhile_cons, ha', if_true, List.cons_append]
        exact congrArg (a :: ·) hs

/-- Every allow-list entry is a nonempty string of letters and dots with no
colon. -/
theorem valid_prefixes_facts :
    ∀ s ∈ valid_prefixes, s.data.isEmpty = false ∧
      s.data.all (fun c => c.isAlpha || c == '.') = true ∧
      s.data.all (fun c => c != ':') = true := by decide

/-- Every value of the source table is a nonempty string of letters with no
colon. -/
theorem sourcePrefixTable_facts (s p : String) (h : sourcePrefixTable s = some p) :
    p.data.isEmpty = false ∧
      p.data.all (fun c => c.isAlpha || c == '.') = true ∧
      p.data.all (fun c => c != ':') = true := by
  unfold sourcePrefixTable at h
  split_ifs at h
  all_goals first
    | exact Option.noConfusion h
    | (have hp := Option.some.inj h; subst hp; decide)

/-- A namespace with the three facts above, a colon and any remainder match
the weakened CURIE pattern. -/
theorem isLooseCurie_concat (p nid : String)
    (h1 : p.data.isEmpty = false)
    (h2 : p.data.all (fun c => c.isAlpha || c == '.') = true)
    (h3 : p.data.all (fun c => c != ':') = true) :
    isLooseCurie (p ++ ":" ++ nid) = true := by
  have hdata : (p ++ ":" ++ nid).data = p.data ++ ':' :: nid.data := by
    simp [String.data_append]
  have hpre : ((p ++ ":" ++ nid).data).takeWhile (fun c => c != ':') = p.data := by
    rw [hdata]
    exact takeWhile_append_cons _ _ _ (List.all_eq_true.mp h3) ':' (by decide)
  unfold isLooseCurie
  rw [hpre, h1, h2, hdata]
  simp

/-- The rule-1 result (the stripped raw id fully upper-cased) matches the
weakened CURIE pattern whenever the upper-cased namespace is in the
allow-list. -/
theorem isLooseCurie_upper (nid : String) (h1 : ':' ∈ nid.data)
    (h2 : String.mk (pyUpperChars (nid.data.takeWhile (fun c => c != ':')))
      ∈ valid_prefixes) :
    isLooseCurie (pyUpper nid) = true := by
  obtain ⟨suf, hs⟩ := exists_split_at_colon nid.data h1
  obtain ⟨f1, f2, f3⟩ := valid_prefixes_facts _ h2
  have g1 : (pyUpperChars (nid.data.takeWhile (fun c => c != ':'))).isEmpty = false := f1
  have g2 : (pyUpperChars (nid.data.takeWhile (fun c => c != ':'))).all
      (fun c => c.isAlpha || c == '.') = true := f2
  have g3 : (pyUpperChars (nid.data.takeWhile (fun c => c != ':'))).all
      (fun c => c != ':') = true := f3
  have hcolon : Char.toUpper ':' = ':' := rfl
  have hdata : (pyUpper nid).data =
      pyUpperChars (nid.data.takeWhile (fun c => c != ':')) ++ ':' :: pyUpperChars suf := by
    show pyUpperChars nid.data = _
    conv_lhs => rw [hs]
    simp [pyUpperChars, hcolon]
  have hpre : ((pyUpper nid).data).takeWhile (fun c => c != ':') =
      pyUpperChars (nid.data.takeWhile (fun c => c != ':')) := by
    rw [hdata]
    exact takeWhile_append_cons _ _ _ (List.all_eq_true.mp g3) ':' (by decide)
  unfold isLooseCurie
  rw [hpre, g1, g2, hdata]
  simp

/-- Rules 2-4 always return Unmapped or a string matching the weakened CURIE
pattern. -/
theorem mapViaSource_shape (nid nsrc : String) :
    mapViaSource nid nsrc = none ∨
      ∃ s, mapViaSource nid nsrc = some s ∧ isLooseCurie s = true := by
  unfold mapViaSource
  cases h : sourcePrefixTable nsrc with
  | none => exact Or.inl rfl
  | some p =>
      obtain ⟨h1, h2, h3⟩ := sourcePrefixTable_facts nsrc p h
      exact Or.inr ⟨p ++ ":" ++ nid, rfl, isLooseCurie_concat p nid h1 h2 h3⟩

/-- C1 (corrected): the classifier is a total function (never raises by
construction) whose result is always Unmapped or a string of the shape
`^[A-Za-z.]+:.*$` — but the local part may be empty, so the strict pattern
`^[A-Za-z.]+:.+$` can fail.  An empty or whitespace-only raw id yields
Unmapped only when the source tag is not in the source table; with a mapped
source it yields the bare namespace followed by a colon. -/
theorem c1_classifier_total (node_id node_type node_name node_source : String) :
    (map_to_curie_with_source node_id node_type node_name node_source = none ∨
      ∃ s, map_to_curie_with_source node_id node_type node_name node_source = some s ∧
        isLooseCurie s = true) ∧
    (pyStrip node_id = "" → sourcePrefixTable (pyStrip node_source) = none →
      map_to_curie_with_source node_id node_type node_name node_source = none) ∧
    (∀ p, pyStrip node_id = "" → sourcePrefixTable (pyStrip node_source) = some p →
      map_to_curie_with_source node_id node_type node_name node_source = some (p ++ ":")) := by
  refine ⟨?_, ?_, ?_⟩
  · unfold map_to_curie_with_source
    by_cases h1 : ':' ∈ (pyStrip node_id).data
    · rw [if_pos h1]
      by_cases h2 : String.mk (pyUpperChars
          ((pyStrip node_id).data.takeWhile (fun c => c != ':'))) ∈ valid_prefixes
      · rw [if_pos h2]
        exact Or.inr ⟨_, rfl, isLooseCurie_upper (pyStrip node_id) h1 h2⟩
      · rw [if_neg h2]
        exact mapViaSource_shape _ _
    · rw [if_neg h1]
      exact mapViaSource_shape _ _
  · intro he hn
    unfold map_to_curie_with_source
    rw [he, if_neg (by decide : ¬ (':' ∈ ("" : String).data))]
    unfold mapViaSource
    rw [hn]
  · intro p he hp
    unfold map_to_curie_with_source
    rw [he, if_neg (by decide : ¬ (':' ∈ ("" : String).data))]
    unfold mapViaSource
    rw [hp]
    simp [String.append_empty]

/-- Witness for the amended C1 theorem: a whitespace-only raw id with the
mapped source "NCBI" yields the bare namespace and a colon. -/
theorem c1_classifier_total_witness :
    (pyStrip " " = "" ∧ sourcePrefixTable (pyStrip "NCBI") = some "NCBIGene") ∧
    map_to_curie_with_source " " "" "" "NCBI" = some ("NCBIGene" ++ ":") :=
  ⟨⟨by decide, by decide⟩,
    (c1_classifier_total " " "" "" "NCBI").2.2 "NCBIGene" (by decide) (by decide)⟩

/-! ## Association list and Except lemmas -/

/-- Bind on a successful Except computation. -/
theorem except_bind_ok {ε α β : Type} (a : α) (f : α → Except ε β) :
    (Except.ok a >>= f) = f a := rfl

/-- Bind on a failed Except computation. -/
theorem except_bind_error {ε α β : Type} (msg : ε) (f : α → Except ε β) :
    ((Except.error msg : Except ε α) >>= f) = Except.error msg := rfl

/-- A successful lookup yields a member of the association list. -/
theorem findVal_mem {α : Type} :
    ∀ (m : List (String × α)) (k : String) (v : α),
      findVal m k = some v → (k, v) ∈ m := by
  intro m
  induction m with
  | nil => intro k v h; cases h
  | cons p rest ih =>
      intro k v h
      unfold findVal at h
      split_ifs at h with hpk
      · have hv := Option.some.inj h
        subst hv
        subst hpk
        exact List.mem_cons_self p rest
      · exact List.mem_cons_of_mem _ (ih k v h)

/-- Lookup fails exactly on the keys not present. -/
theorem findVal_none {α : Type} :
    ∀ (m : List (String × α)) (k : String), findVal m k = none ↔ k ∉ keys m := by
  intro m
  induction m with
  | nil => intro k; simp [findVal, keys]
  | cons p rest ih =>
      intro k
      unfold findVal
      split_ifs with hpk
      · simp [keys, hpk]
      · rw [ih k]
        simp only [keys, List.map_cons, List.mem_cons]
        constructor
        · intro hk hor
          rcases hor with h1 | h1
          · exact hpk h1.symm
          · exact hk h1
        · intro hk h1
          exact hk (Or.inr h1)

/-- Keys after a dict assignment: unchanged for an existing key, the new key
appended otherwise. -/
theorem keys_dictInsert {α : Type} (m : List (String × α)) (k : String) (v : α) :
    keys (dictInsert m k v) = if k ∈ keys m then keys m else keys m ++ [k] := by
  unfold dictInsert keys
  split_ifs with h
  · rw [List.map_map]
    apply List.map_congr_left
    intro p hp
    by_cases hpk : p.1 = k
    · simp [Function.comp, hpk]
    · simp [Function.comp, hpk]
  · simp

/-- Every member of a dict after an assignment carries the assigned value or
was already present. -/
theorem mem_dictInsert {α : Type} (m : List (String × α)) (k : String) (v : α)
    (p : String × α) (hp : p ∈ dictInsert m k v) : p.2 = v ∨ p ∈ m := by
  unfold dictInsert at hp
  split_ifs at hp with h
  · obtain ⟨q, hq, hfq⟩ := List.mem_map.mp hp
    by_cases hqk : q.1 = k
    · left; rw [← hfq]; simp [hqk]
    · right
      rw [← hfq]
      simp only [hqk, if_false]
      exact hq
  · rcases List.mem_append.mp hp with h1 | h1
    · right; exact h1
    · left
      rw [List.mem_singleton.mp h1]

/-! ## Characterization of entity creation -/

/-- A successful `create_entity_from_normalized` run determines every raw
field and the exact entity built. -/
theorem create_ok_elim (r : RawEntity) (s : String) (e : NormalizedEntity)
    (h : create_entity_from_normalized r s = Except.ok e) :
    ∃ i idf lab eqs tys, r.id = some i ∧ i.identifier = some idf ∧ i.label = some lab ∧
      r.equivalent_identifiers = some eqs ∧ r.type = some tys ∧
      e = { identifier := idf, label := lab, equivalent_identifiers := eqs,
            types := tys, source_databases := {s}, confidence_score := none } := by
  unfold create_entity_from_normalized at h
  cases hid : r.id with
  | none => rw [hid] at h; exact Except.noConfusion h
  | some i =>
      rw [hid] at h
      simp only [getField, except_bind_ok] at h
      cases hidf : i.identifier with
      | none => rw [hidf] at h; exact Except.noConfusion h
      | some idf =>
          rw [hidf] at h
          simp only [except_bind_ok] at h
          cases hlab : i.label with
          | none => rw [hlab] at h; exact Except.noConfusion h
          | some lab =>
              rw [hlab] at h
              simp only [except_bind_ok] at h
              cases heqs : r.equivalent_identifiers with
              | none => rw [heqs] at h; exact Except.noConfusion h
              | some eqs =>
                  rw [heqs] at h
                  simp only [except_bind_ok] at h
                  cases htys : r.type with
                  | none => rw [htys] at h; exact Except.noConfusion h
                  | some tys =>
                      rw [htys] at h
                      simp only [except_bind_ok] at h
                      exact ⟨i, idf, lab, eqs, tys, rfl, hidf, hlab, rfl, rfl,
                        (Except.ok.inj h).symm⟩

/-- A freshly created entity has no confidence score. -/
theorem create_score_none (r : RawEntity) (s : String) (e : NormalizedEntity)
    (h : create_entity_from_normalized r s = Except.ok e) :
    e.confidence_score = none := by
  obtain ⟨i, idf, lab, eqs, tys, _, _, _, _, _, he⟩ := create_ok_elim r s e h
  rw [he]

/-- The decidable self-membership precondition on a raw record: whenever all
relevant fields are present, the record's own identifier appears among its
equivalent identifiers. -/
def selfOK (r : RawEntity) : Bool :=
  match r.id, r.equivalent_identifiers with
  | some i, some eqs =>
      match i.identifier with
      | some idf => eqs.any (fun q => q.identifier == idf)
      | none => true
  | _, _ => true

/-- Self-membership of a built entity: some equivalent-identifier entry
carries the entity's own identifier. -/
def hasSelf (e : NormalizedEntity) : Prop :=
  ∃ q ∈ e.equivalent_identifiers, q.identifier = e.identifier

/-- Entity creation preserves self-membership. -/
theorem create_hasSelf (r : RawEntity) (s : String) (e : NormalizedEntity)
    (hok : selfOK r = true) (h : create_entity_from_normalized r s = Except.ok e) :
    hasSelf e := by
  obtain ⟨i, idf, lab, eqs, tys, hid, hidf, hlab, heqs, htys, he⟩ := create_ok_elim r s e h
  subst he
  have hany : eqs.any (fun q => q.identifier == idf) = true := by
    obtain ⟨rid, req, rty⟩ := r
    obtain ⟨iid, ilab⟩ := i
    dsimp only at hid heqs hidf
    subst hid
    subst heqs
    subst hidf
    simpa [selfOK] using hok
  obtain ⟨q, hq, hbeq⟩ := List.any_eq_true.mp hany
  exact ⟨q, hq, by simpa using hbeq⟩

/-! ## Claim C3: amended theorem -/

/-- A record with a missing required field makes entity creation raise. -/
theorem create_error_of_missing (r : RawEntity) (s : String)
    (h : missingRequired r) :
    ∃ msg, create_entity_from_normalized r s = Except.error msg := by
  cases hc : create_entity_from_normalized r s with
  | error msg => exact ⟨msg, rfl⟩
  | ok e =>
      exfalso
      obtain ⟨i, idf, lab, eqs, tys, hid, hidf, hlab, heqs, htys, he⟩ :=
        create_ok_elim r s e hc
      rcases h with h | ⟨j, hj, hjid⟩ | h | h
      · rw [h] at hid; exact Option.noConfusion hid
      · rw [hj] at hid
        rw [Option.some.inj hid] at hjid
        rw [hjid] at hidf
        exact Option.noConfusion hidf
      · rw [h] at heqs; exact Option.noConfusion heqs
      · rw [h] at htys; exact Option.noConfusion htys

/-- The PrimeKG loop raises as soon as any of its records is missing a
required field. -/
theorem addEntities_error (src : String) :
    ∀ (l : List (String × RawEntity)) (acc : List (String × NormalizedEntity))
      (k : String) (r : RawEntity), (k, r) ∈ l → missingRequired r →
      ∃ msg, addEntities src acc l = Except.error msg := by
  intro l
  induction l with
  | nil => intro acc k r hmem; cases hmem
  | cons q rest ih =>
      obtain ⟨k0, r0⟩ := q
      intro acc k r hmem hmiss
      rcases List.mem_cons.mp hmem with h1 | h1
      · obtain ⟨msg, hmsg⟩ := create_error_of_missing r src hmiss
        have hr0 : r0 = r := congrArg Prod.snd h1.symm
        refine ⟨msg, ?_⟩
        unfold addEntities
        rw [hr0, hmsg, except_bind_error]
      · cases hc : create_entity_from_normalized r0 src with
        | error msg =>
            refine ⟨msg, ?_⟩
            unfold addEntities
            rw [hc, except_bind_error]
        | ok e =>
            obtain ⟨msg, hmsg⟩ := ih (dictInsert acc k0 e) k r h1 hmiss
            refine ⟨msg, ?_⟩
            unfold addEntities
            rw [hc, except_bind_ok]
            exact hmsg

/-! ## Generic value invariants of the four merge strategies -/

/-- Pure is ok for Except. -/
theorem except_pure {ε α : Type} (a : α) : (pure a : Except ε α) = Except.ok a := rfl

/-- Every entity of a successful PrimeKG load phase satisfies any predicate
established by entity creation and holding on the accumulator. -/
theorem addEntities_pred (P : NormalizedEntity → Prop) (Q : RawEntity → Prop)
    (src : String)
    (hC : ∀ r e, Q r → create_entity_from_normalized r src = Except.ok e → P e) :
    ∀ (l : List (String × RawEntity)) (acc : List (String × NormalizedEntity)),
      (∀ p ∈ l, Q p.2) → (∀ p ∈ acc, P p.2) →
      ∀ m, addEntities src acc l = Except.ok m → ∀ p ∈ m, P p.2 := by
  intro l
  induction l with
  | nil =>
      intro acc hQ hacc m hm
      unfold addEntities at hm
      rw [← Except.ok.inj hm]
      exact hacc
  | cons q rest ih =>
      obtain ⟨k, r⟩ := q
      intro acc hQ hacc m hm
      unfold addEntities at hm
      cases hc : create_entity_from_normalized r src with
      | error msg =>
          simp only [hc, except_bind_error] at hm
          exact Except.noConfusion hm
      | ok e =>
          simp only [hc, except_bind_ok] at hm
          refine ih (dictInsert acc k e) (fun p hp => hQ p (List.mem_cons_of_mem _ hp)) ?_ m hm
          intro p hp
          rcases mem_dictInsert acc k e p hp with h1 | h1
          · rw [h1]
            exact hC r e (hQ (k, r) (List.mem_cons_self _ _)) hc
          · exact hacc p h1

/-- One SemMed union step preserves any predicate established by creation
and preserved by the overlap merge. -/
theorem mergeSemStep_pred (P : NormalizedEntity → Prop) (Q : RawEntity → Prop)
    (hC : ∀ r e, Q r → create_entity_from_normalized r "SemMed" = Except.ok e → P e)
    (hM : ∀ ex r e2, P ex → Q r → mergeInto ex r = Except.ok e2 → P e2)
    (acc : List (String × NormalizedEntity)) (k : String) (r : RawEntity)
    (hacc : ∀ p ∈ acc, P p.2) (hQ : Q r)
    (acc2 : List (String × NormalizedEntity)) (h : mergeSemStep acc k r = Except.ok acc2) :
    ∀ p ∈ acc2, P p.2 := by
  unfold mergeSemStep at h
  split at h
  · rename_i ex hex
    cases hmi : mergeInto ex r with
    | error msg =>
        simp only [hmi, except_bind_error] at h
        exact Except.noConfusion h
    | ok e2 =>
        simp only [hmi, except_bind_ok, except_pure] at h
        rw [← Except.ok.inj h]
        intro p hp
        rcases mem_dictInsert acc k e2 p hp with h1 | h1
        · rw [h1]
          exact hM ex r e2 (hacc (k, ex) (findVal_mem acc k ex hex)) hQ hmi
        · exact hacc p h1
  · cases hc : create_entity_from_normalized r "SemMed" with
    | error msg =>
        simp only [hc, except_bind_error] at h
        exact Except.noConfusion h
    | ok e =>
        simp only [hc, except_bind_ok, except_pure] at h
        rw [← Except.ok.inj h]
        intro p hp
        rcases mem_dictInsert acc k e p hp with h1 | h1
        · rw [h1]
          exact hC r e hQ hc
        · exact hacc p h1

/-- The SemMed union phase preserves such predicates. -/
theorem mergeSemMed_pred (P : NormalizedEntity → Prop) (Q : RawEntity → Prop)
    (hC : ∀ r e, Q r → create_entity_from_normalized r "SemMed" = Except.ok e → P e)
    (hM : ∀ ex r e2, P ex → Q r → mergeInto ex r = Except.ok e2 → P e2) :
    ∀ (l : List (String × RawEntity)) (acc : List (String × NormalizedEntity)),
      (∀ p ∈ l, Q p.2) → (∀ p ∈ acc, P p.2) →
      ∀ m, mergeSemMed acc l = Except.ok m → ∀ p ∈ m, P p.2 := by
  intro l
  induction l with
  | nil =>
      intro acc hQ hacc m hm
      unfold mergeSemMed at hm
      rw [← Except.ok.inj hm]
      exact hacc
  | cons q rest ih =>
      obtain ⟨k, r⟩ := q
      intro acc hQ hacc m hm
      unfold mergeSemMed at hm
      cases hs : mergeSemStep acc k r with
      | error msg =>
          simp only [hs, except_bind_error] at hm
          exact Except.noConfusion hm
      | ok acc2 =>
          simp only [hs, except_bind_ok] at hm
          exact ih acc2 (fun p hp => hQ p (List.mem_cons_of_mem _ hp))
            (mergeSemStep_pred P Q hC hM acc k r hacc
              (hQ (k, r) (List.mem_cons_self _ _)) acc2 hs) m hm

/-- Union merge: every output value satisfies any predicate established by
creation from either source and preserved by the overlap merge. -/
theorem union_merge_pred (P : NormalizedEntity → Prop) (Q : RawEntity → Prop)
    (hCpk : ∀ r e, Q r → create_entity_from_normalized r "PrimeKG" = Except.ok e → P e)
    (hCsm : ∀ r e, Q r → create_entity_from_normalized r "SemMed" = Except.ok e → P e)
    (hM : ∀ ex r e2, P ex → Q r → mergeInto ex r = Except.ok e2 → P e2)
    (pk sm : List (String × RawEntity))
    (hA : ∀ p ∈ pk, Q p.2) (hB : ∀ p ∈ sm, Q p.2)
    (m : List (String × NormalizedEntity)) (h : union_merge pk sm = Except.ok m) :
    ∀ p ∈ m, P p.2 := by
  unfold union_merge at h
  cases hb : addEntities "PrimeKG" [] pk with
  | error msg =>
      simp only [hb, except_bind_error] at h
      exact Except.noConfusion h
  | ok base =>
      simp only [hb, except_bind_ok] at h
      exact mergeSemMed_pred P Q hCsm hM sm base hB
        (addEntities_pred P Q "PrimeKG" hCpk pk [] hA
          (fun p hp => absurd hp (List.not_mem_nil p)) base hb) m h

/-- One intersection step preserves any predicate established by
`intersectOne`. -/
theorem interStep_pred (P : NormalizedEntity → Prop) (Q : RawEntity → Prop)
    (hI : ∀ pkr smr e, Q pkr → Q smr → intersectOne pkr smr = Except.ok e → P e)
    (sm : List (String × RawEntity)) (hB : ∀ p ∈ sm, Q p.2)
    (acc : List (String × NormalizedEntity)) (k : String) (r : RawEntity)
    (hacc : ∀ p ∈ acc, P p.2) (hQ : Q r)
    (acc2 : List (String × NormalizedEntity)) (h : interStep sm acc k r = Except.ok acc2) :
    ∀ p ∈ acc2, P p.2 := by
  unfold interStep at h
  split at h
  · rename_i smr hsm
    cases hio : intersectOne r smr with
    | error msg =>
        simp only [hio, except_bind_error] at h
        exact Except.noConfusion h
    | ok e =>
        simp only [hio, except_bind_ok, except_pure] at h
        rw [← Except.ok.inj h]
        intro p hp
        rcases mem_dictInsert acc k e p hp with h1 | h1
        · rw [h1]
          exact hI r smr e hQ (hB (k, smr) (findVal_mem sm k smr hsm)) hio
        · exact hacc p h1
  · rw [← Except.ok.inj h]
    exact hacc

/-- Intersection merge: every output value satisfies any predicate
established by `intersectOne`. -/
theorem intersection_merge_pred (P : NormalizedEntity → Prop) (Q : RawEntity → Prop)
    (hI : ∀ pkr smr e, Q pkr → Q smr → intersectOne pkr smr = Except.ok e → P e)
    (pk sm : List (String × RawEntity))
    (hA : ∀ p ∈ pk, Q p.2) (hB : ∀ p ∈ sm, Q p.2)
    (m : List (String × NormalizedEntity)) (h : intersection_merge pk sm = Except.ok m) :
    ∀ p ∈ m, P p.2 := by
  unfold intersection_merge at h
  suffices hgen : ∀ (l : List (String × RawEntity)) (acc : List (String × NormalizedEntity)),
      (∀ p ∈ l, Q p.2) → (∀ p ∈ acc, P p.2) →
      ∀ m2, interGo sm acc l = Except.ok m2 → ∀ p ∈ m2, P p.2 by
    exact hgen pk [] hA (fun p hp => absurd hp (List.not_mem_nil p)) m h
  intro l
  induction l with
  | nil =>
      intro acc hQ hacc m2 hm
      unfold interGo at hm
      rw [← Except.ok.inj hm]
      exact hacc
  | cons q rest ih =>
      obtain ⟨k, r⟩ := q
      intro acc hQ hacc m2 hm
      unfold interGo at hm
      cases hs : interStep sm acc k r with
      | error msg =>
          simp only [hs, except_bind_error] at hm
          exact Except.noConfusion hm
      | ok acc2 =>
          simp only [hs, except_bind_ok] at hm
          exact ih acc2 (fun p hp => hQ p (List.mem_cons_of_mem _ hp))
            (interStep_pred P Q hI sm hB acc k r hacc
              (hQ (k, r) (List.mem_cons_self _ _)) acc2 hs) m2 hm

/-- The PrimeKG phase of the confidence merge establishes any predicate that
holds of freshly created and scored entities. -/
theorem confPhase1_pred (P : NormalizedEntity → Prop) (Q : RawEntity → Prop) (w : ℚ)
    (hNew : ∀ r e, Q r → create_entity_from_normalized r "PrimeKG" = Except.ok e →
      P { e with confidence_score := some (calculate_confidence e "PrimeKG" w) }) :
    ∀ (l : List (String × RawEntity)) (acc : List (String × NormalizedEntity)),
      (∀ p ∈ l, Q p.2) → (∀ p ∈ acc, P p.2) →
      ∀ m, confPhase1 w acc l = Except.ok m → ∀ p ∈ m, P p.2 := by
  intro l
  induction l with
  | nil =>
      intro acc hQ hacc m hm
      unfold confPhase1 at hm
      rw [← Except.ok.inj hm]
      exact hacc
  | cons q rest ih =>
      obtain ⟨k, r⟩ := q
      intro acc hQ hacc m hm
      unfold confPhase1 at hm
      cases hc : create_entity_from_normalized r "PrimeKG" with
      | error msg =>
          simp only [hc, except_bind_error] at hm
          exact Except.noConfusion hm
      | ok e =>
          simp only [hc, except_bind_ok] at hm
          refine ih _ (fun p hp => hQ p (List.mem_cons_of_mem _ hp)) ?_ m hm
          intro p hp
          rcases mem_dictInsert acc k _ p hp with h1 | h1
          · rw [h1]
            exact hNew r e (hQ (k, r) (List.mem_cons_self _ _)) hc
          · exact hacc p h1

/-- One SemMed confidence step preserves any predicate that holds of freshly
scored entities, is stable under replacing the source set, and is preserved
by the keep branch. -/
theorem confStep_pred (P : NormalizedEntity → Prop) (Q : RawEntity → Prop) (w : ℚ)
    (hNew : ∀ r e, Q r → create_entity_from_normalized r "SemMed" = Except.ok e →
      P { e with confidence_score := some (calculate_confidence e "SemMed" (1 - w)) })
    (hSrc : ∀ e s, P e → P { e with source_databases := s })
    (hKeep : ∀ ex ne, P ex → P (confKeep ex ne))
    (acc : List (String × NormalizedEntity)) (k : String) (r : RawEntity)
    (hacc : ∀ p ∈ acc, P p.2) (hQ : Q r)
    (acc2 : List (String × NormalizedEntity)) (h : confStep w acc k r = Except.ok acc2) :
    ∀ p ∈ acc2, P p.2 := by
  unfold confStep at h
  split at h
  · rename_i ex hex
    cases hc : create_entity_from_normalized r "SemMed" with
    | error msg =>
        simp only [hc, except_bind_error] at h
        exact Except.noConfusion h
    | ok e =>
        simp only [hc, except_bind_ok, except_pure] at h
        split at h
        · rw [← Except.ok.inj h]
          intro p hp
          rcases mem_dictInsert acc k _ p hp with h1 | h1
          · rw [h1]
            exact hSrc _ _ (hNew r e hQ hc)
          · exact hacc p h1
        · rw [← Except.ok.inj h]
          intro p hp
          rcases mem_dictInsert acc k _ p hp with h1 | h1
          · rw [h1]
            exact hKeep ex _ (hacc (k, ex) (findVal_mem acc k ex hex))
          · exact hacc p h1
  · cases hc : create_entity_from_normalized r "SemMed" with
    | error msg =>
        simp only [hc, except_bind_error] at h
        exact Except.noConfusion h
    | ok e =>
        simp only [hc, except_bind_ok, except_pure] at h
        rw [← Except.ok.inj h]
        intro p hp
        rcases mem_dictInsert acc k _ p hp with h1 | h1
        · rw [h1]
          exact hNew r e hQ hc
        · exact hacc p h1

/-- The confidence merge: every output value satisfies such a predicate. -/
theorem confidence_merge_pred (P : NormalizedEntity → Prop) (Q : RawEntity → Prop) (w : ℚ)
    (hNewPk : ∀ r e, Q r → create_entity_from_normalized r "PrimeKG" = Except.ok e →
      P { e with confidence_score := some (calculate_confidence e "PrimeKG" w) })
    (hNewSm : ∀ r e, Q r → create_entity_from_normalized r "SemMed" = Except.ok e →
      P { e with confidence_score := some (calculate_confidence e "SemMed" (1 - w)) })
    (hSrc : ∀ e s, P e → P { e with source_databases := s })
    (hKeep : ∀ ex ne, P ex → P (confKeep ex ne))
    (pk sm : List (String × RawEntity))
    (hA : ∀ p ∈ pk, Q p.2) (hB : ∀ p ∈ sm, Q p.2)
    (m : List (String × NormalizedEntity)) (h : confidence_based_merge pk sm w = Except.ok m) :
    ∀ p ∈ m, P p.2 := by
  unfold confidence_based_merge at h
  cases hb : confPhase1 w [] pk with
  | error msg =>
      simp only [hb, except_bind_error] at h
      exact Except.noConfusion h
  | ok base =>
      simp only [hb, except_bind_ok] at h
      have hbase : ∀ p ∈ base, P p.2 :=
        confPhase1_pred P Q w hNewPk pk [] hA
          (fun p hp => absurd hp (List.not_mem_nil p)) base hb
      clear hb
      revert hbase h
      suffices hgen : ∀ (l : List (String × RawEntity)) (acc : List (String × NormalizedEntity)),
          (∀ p ∈ l, Q p.2) → (∀ p ∈ acc, P p.2) →
          ∀ m2, confPhase2 w acc l = Except.ok m2 → ∀ p ∈ m2, P p.2 by
        intro h hbase
        exact hgen sm base hB hbase m h
      intro l
      induction l with
      | nil =>
          intro acc hQ hacc m2 hm
          unfold confPhase2 at hm
          rw [← Except.ok.inj hm]
          exact hacc
      | cons q rest ih =>
          obtain ⟨k, r⟩ := q
          intro acc hQ hacc m2 hm
          unfold confPhase2 at hm
          cases hs : confStep w acc k r with
          | error msg =>
              simp only [hs, except_bind_error] at hm
              exact Except.noConfusion hm
          | ok acc2 =>
              simp only [hs, except_bind_ok] at hm
              exact ih acc2 (fun p hp => hQ p (List.mem_cons_of_mem _ hp))
                (confStep_pred P Q w hNewSm hSrc hKeep acc k r hacc
                  (hQ (k, r) (List.mem_cons_self _ _)) acc2 hs) m2 hm

/-- Scored entity construction establishes any predicate that holds of a
created entity carrying its type priority as score. -/
theorem buildScored_pred (P : NormalizedEntity → Prop) (Q : RawEntity → Prop) (src : String)
    (hS : ∀ r e, Q r → create_entity_from_normalized r src = Except.ok e →
      P { e with confidence_score := some ((get_type_priority e.types : ℚ)) }) :
    ∀ (l : List (String × RawEntity)), (∀ p ∈ l, Q p.2) →
      ∀ m, buildScored src l = Except.ok m → ∀ p ∈ m, P p.2 := by
  intro l
  induction l with
  | nil =>
      intro hQ m hm
      unfold buildScored at hm
      rw [← Except.ok.inj hm]
      intro p hp
      cases hp
  | cons q rest ih =>
      obtain ⟨k, r⟩ := q
      intro hQ m hm
      unfold buildScored at hm
      cases hc : create_entity_from_normalized r src with
      | error msg =>
          simp only [hc, except_bind_error] at hm
          exact Except.noConfusion hm
      | ok e =>
          simp only [hc, except_bind_ok] at hm
          cases hrest : buildScored src rest with
          | error msg =>
              simp only [hrest, except_bind_error] at hm
              exact Except.noConfusion hm
          | ok m2 =>
              simp only [hrest, except_bind_ok, except_pure] at hm
              rw [← Except.ok.inj hm]
              intro p hp
              rcases List.mem_cons.mp hp with h1 | h1
              · rw [h1]
                exact hS r e (hQ (k, r) (List.mem_cons_self _ _)) hc
              · exact ih (fun p hp2 => hQ p (List.mem_cons_of_mem _ hp2)) m2 hrest p h1

/-- The Python max scan returns a member of the scanned list. -/
theorem pickBest_mem :
    ∀ (l : List NormalizedEntity) (b : NormalizedEntity), pickBest b l ∈ b :: l := by
  intro l
  induction l with
  | nil =>
      intro b
      unfold pickBest
      exact List.mem_cons_self _ _
  | cons e rest ih =>
      intro b
      unfold pickBest
      split_ifs with h
      · rcases List.mem_cons.mp (ih e) with h1 | h1
        · rw [h1]
          exact List.mem_cons_of_mem _ (List.mem_cons_self _ _)
        · exact List.mem_cons_of_mem _ (List.mem_cons_of_mem _ h1)
      · rcases List.mem_cons.mp (ih b) with h1 | h1
        · rw [h1]
          exact List.mem_cons_self _ _
        · exact List.mem_cons_of_mem _ (List.mem_cons_of_mem _ h1)

/-- Type-priority merge: every output value satisfies any predicate that
holds of scored created entities and is stable under replacing the source
set. -/
theorem type_based_pred (P : NormalizedEntity → Prop) (Q : RawEntity → Prop)
    (hSpk : ∀ r e, Q r → create_entity_from_normalized r "PrimeKG" = Except.ok e →
      P { e with confidence_score := some ((get_type_priority e.types : ℚ)) })
    (hSsm : ∀ r e, Q r → create_entity_from_normalized r "SemMed" = Except.ok e →
      P { e with confidence_score := some ((get_type_priority e.types : ℚ)) })
    (hSrc : ∀ e s, P e → P { e with source_databases := s })
    (pk sm : List (String × RawEntity))
    (hA : ∀ p ∈ pk, Q p.2) (hB : ∀ p ∈ sm, Q p.2)
    (m : List (String × NormalizedEntity)) (h : type_based_merge pk sm = Except.ok m) :
    ∀ p ∈ m, P p.2 := by
  unfold type_based_merge at h
  cases h1 : buildScored "PrimeKG" pk with
  | error msg =>
      simp only [h1, except_bind_error] at h
      exact Except.noConfusion h
  | ok pkE =>
      simp only [h1, except_bind_ok] at h
      cases h2 : buildScored "SemMed" sm with
      | error msg =>
          simp only [h2, except_bind_error] at h
          exact Except.noConfusion h
      | ok smE =>
          simp only [h2, except_bind_ok, except_pure] at h
          rw [← Except.ok.inj h]
          have hall : ∀ p ∈ pkE ++ smE, P p.2 := by
            intro p hp
            rcases List.mem_append.mp hp with h3 | h3
            · exact buildScored_pred P Q "PrimeKG" hSpk pk hA pkE h1 p h3
            · exact buildScored_pred P Q "SemMed" hSsm sm hB smE h2 p h3
          intro p hp
          obtain ⟨k, hk, hfk⟩ := List.mem_filterMap.mp hp
          revert hfk
          cases hg : groupOf (pkE ++ smE) k with
          | nil => intro hfk; exact Option.noConfusion hfk
          | cons e rest =>
              cases rest with
              | nil =>
                  intro hfk
                  rw [(Option.some.inj hfk).symm]
                  have he : e ∈ groupOf (pkE ++ smE) k := by
                    rw [hg]
                    exact List.mem_cons_self _ _
                  obtain ⟨q, hq1, hq2⟩ := List.mem_map.mp he
                  rw [← hq2]
                  exact hall q (List.mem_of_mem_filter hq1)
              | cons e2 rest2 =>
                  intro hfk
                  rw [(Option.some.inj hfk).symm]
                  have hin : pickBest e (e2 :: rest2) ∈ groupOf (pkE ++ smE) k := by
                    rw [hg]
                    exact pickBest_mem (e2 :: rest2) e
                  obtain ⟨q, hq1, hq2⟩ := List.mem_map.mp hin
                  have hPb : P (pickBest e (e2 :: rest2)) := by
                    rw [← hq2]
                    exact hall q (List.mem_of_mem_filter hq1)
                  exact hSrc _ _ hPb

/-! ## Field-level facts about the merge steps -/

/-- A successful overlap merge determines the raw fields read and the entity
built. -/
theorem mergeInto_ok_elim (ex : NormalizedEntity) (r : RawEntity) (e2 : NormalizedEntity)
    (h : mergeInto ex r = Except.ok e2) :
    ∃ tys eqs, r.type = some tys ∧ r.equivalent_identifiers = some eqs ∧
      e2 = { ex with
             source_databases := insert "SemMed" ex.source_databases,
             types := mergeTypes ex.types tys,
             equivalent_identifiers := mergeEquivIds ex.equivalent_identifiers eqs } := by
  unfold mergeInto at h
  cases ht : r.type with
  | none =>
      simp only [ht, getField, except_bind_error] at h
      exact Except.noConfusion h
  | some tys =>
      simp only [ht, getField, except_bind_ok] at h
      cases he : r.equivalent_identifiers with
      | none =>
          simp only [he, getField, except_bind_error] at h
          exact Except.noConfusion h
      | some eqs =>
          simp only [he, getField, except_bind_ok, except_pure] at h
          exact ⟨tys, eqs, rfl, rfl, (Except.ok.inj h).symm⟩

/-- The overlap merge preserves self-membership. -/
theorem mergeInto_hasSelf (ex : NormalizedEntity) (r : RawEntity) (e2 : NormalizedEntity)
    (h : mergeInto ex r = Except.ok e2) (hs : hasSelf ex) : hasSelf e2 := by
  obtain ⟨tys, eqs, _, _, he2⟩ := mergeInto_ok_elim ex r e2 h
  subst he2
  obtain ⟨q, hq, hqi⟩ := hs
  exact ⟨q, List.mem_append_left _ hq, hqi⟩

/-- The overlap merge keeps the existing confidence score. -/
theorem mergeInto_score (ex : NormalizedEntity) (r : RawEntity) (e2 : NormalizedEntity)
    (h : mergeInto ex r = Except.ok e2) :
    e2.confidence_score = ex.confidence_score := by
  obtain ⟨tys, eqs, _, _, he2⟩ := mergeInto_ok_elim ex r e2 h
  subst he2
  rfl

/-- The intersection entity builder preserves self-membership of the
left-hand record. -/
theorem intersectOne_hasSelf (pkr smr : RawEntity) (e : NormalizedEntity)
    (hq : selfOK pkr = true) (h : intersectOne pkr smr = Except.ok e) : hasSelf e := by
  unfold intersectOne at h
  cases hc : create_entity_from_normalized pkr "PrimeKG" with
  | error msg =>
      simp only [hc, except_bind_error] at h
      exact Except.noConfusion h
  | ok e0 =>
      simp only [hc, except_bind_ok] at h
      cases ht : smr.type with
      | none =>
          simp only [ht, getField, except_bind_error] at h
          exact Except.noConfusion h
      | some tys =>
          simp only [ht, getField, except_bind_ok] at h
          cases he : smr.equivalent_identifiers with
          | none =>
              simp only [he, getField, except_bind_error] at h
              exact Except.noConfusion h
          | some eqs =>
              simp only [he, getField, except_bind_ok, except_pure] at h
              rw [← Except.ok.inj h]
              obtain ⟨q, hq2, hqi⟩ := create_hasSelf pkr "PrimeKG" e0 hq hc
              exact ⟨q, List.mem_append_left _ hq2, hqi⟩

/-- The intersection entity builder leaves the score unset. -/
theorem intersectOne_score (pkr smr : RawEntity) (e : NormalizedEntity)
    (h : intersectOne pkr smr = Except.ok e) : e.confidence_score = none := by
  unfold intersectOne at h
  cases hc : create_entity_from_normalized pkr "PrimeKG" with
  | error msg =>
      simp only [hc, except_bind_error] at h
      exact Except.noConfusion h
  | ok e0 =>
      simp only [hc, except_bind_ok] at h
      cases ht : smr.type with
      | none =>
          simp only [ht, getField, except_bind_error] at h
          exact Except.noConfusion h
      | some tys =>
          simp only [ht, getField, except_bind_ok] at h
          cases he : smr.equivalent_identifiers with
          | none =>
              simp only [he, getField, except_bind_error] at h
              exact Except.noConfusion h
          | some eqs =>
              simp only [he, getField, except_bind_ok, except_pure] at h
              rw [← Except.ok.inj h]
              exact create_score_none pkr "PrimeKG" e0 hc

/-- The keep branch of the confidence merge preserves self-membership. -/
theorem confKeep_hasSelf (ex ne : NormalizedEntity) (hs : hasSelf ex) :
    hasSelf (confKeep ex ne) := by
  obtain ⟨q, hq, hqi⟩ := hs
  exact ⟨q, List.mem_append_left _ hq, hqi⟩

/-! ## Claim C7: self-membership preserved by all four strategies -/

/-- C7 (confirmed): if every input record of both sources carries its own
identifier among its equivalent identifiers, then — whenever a strategy
succeeds — every entity of the merged output does too, for all four merge
strategies and every weight. -/
theorem c7_self_membership_preserved (pk sm : List (String × RawEntity)) (w : ℚ)
    (hA : ∀ p ∈ pk, selfOK p.2 = true) (hB : ∀ p ∈ sm, selfOK p.2 = true) :
    (∀ m, union_merge pk sm = Except.ok m → ∀ p ∈ m, hasSelf p.2) ∧
    (∀ m, intersection_merge pk sm = Except.ok m → ∀ p ∈ m, hasSelf p.2) ∧
    (∀ m, confidence_based_merge pk sm w = Except.ok m → ∀ p ∈ m, hasSelf p.2) ∧
    (∀ m, type_based_merge pk sm = Except.ok m → ∀ p ∈ m, hasSelf p.2) := by
  refine ⟨?_, ?_, ?_, ?_⟩
  · intro m h
    exact union_merge_pred hasSelf (fun r => selfOK r = true)
      (fun r e hq hc => create_hasSelf r "PrimeKG" e hq hc)
      (fun r e hq hc => create_hasSelf r "SemMed" e hq hc)
      (fun ex r e2 hP _ hmi => mergeInto_hasSelf ex r e2 hmi hP)
      pk sm hA hB m h
  · intro m h
    exact intersection_merge_pred hasSelf (fun r => selfOK r = true)
      (fun pkr smr e hq1 _ hio => intersectOne_hasSelf pkr smr e hq1 hio)
      pk sm hA hB m h
  · intro m h
    refine confidence_merge_pred hasSelf (fun r => selfOK r = true) w ?_ ?_ ?_ ?_
      pk sm hA hB m h
    · intro r e hq hc
      exact create_hasSelf r "PrimeKG" e hq hc
    · intro r e hq hc
      exact create_hasSelf r "SemMed" e hq hc
    · intro e s hP
      exact hP
    · intro ex ne hP
      exact confKeep_hasSelf ex ne hP
  · intro m h
    refine type_based_pred hasSelf (fun r => selfOK r = true) ?_ ?_ ?_ pk sm hA hB m h
    · intro r e hq hc
      exact create_hasSelf r "PrimeKG" e hq hc
    · intro r e hq hc
      exact create_hasSelf r "SemMed" e hq hc
    · intro e s hP
      exact hP

/-- Witness for C7, at two concrete overlapping self-consistent maps. -/
theorem c7_self_membership_preserved_witness :
    ((∀ p ∈ c2pk, selfOK p.2 = true) ∧ (∀ p ∈ c2sm, selfOK p.2 = true)) ∧
    (∀ m, union_merge c2pk c2sm = Except.ok m → ∀ p ∈ m, hasSelf p.2) :=
  ⟨⟨by decide, by decide⟩,
    (c7_self_membership_preserved c2pk c2sm 0 (by decide) (by decide)).1⟩

/-! ## Claim C4: amended score ranges -/

/-- Bounds of `_calculate_confidence` for a nonnegative weight: the result
is upper-clamped to 1 by the `min` and all bonuses are nonnegative. -/
theorem calculate_confidence_bounds (e : NormalizedEntity) (s : String) (wgt : ℚ)
    (hw : 0 ≤ wgt) :
    0 ≤ calculate_confidence e s wgt ∧ calculate_confidence e s wgt ≤ 1 := by
  unfold calculate_confidence
  constructor
  · apply le_min
    · norm_num
    · have h1 : (0:ℚ) ≤ min (2/10 : ℚ) ((e.equivalent_identifiers.length : ℚ) * (5/100)) :=
        le_min (by norm_num) (by positivity)
      have h2 : (0:ℚ) ≤ min (1/10 : ℚ) ((e.types.length : ℚ) * (1/100)) :=
        le_min (by norm_num) (by positivity)
      have h3 : (0:ℚ) ≤ (if s = "PrimeKG" then (1/10 : ℚ) else 5/100) := by
        split_ifs <;> norm_num
      linarith
  · exact min_le_left _ _

/-- A fold of guarded maxima stays below any bound on its start and its
candidates. -/
theorem foldl_max_bound (t : String) :
    ∀ (l : List (String × Nat)) (acc : Nat), acc ≤ 10 → (∀ p ∈ l, p.2 ≤ 10) →
      l.foldl (fun acc2 p => if p.1.data.isPrefixOf t.data then max acc2 p.2 else acc2) acc
        ≤ 10 := by
  intro l
  induction l with
  | nil => intro acc h _; simpa using h
  | cons p rest ih =>
      intro acc h hall
      rw [List.foldl_cons]
      refine ih _ ?_ (fun q hq => hall q (List.mem_cons_of_mem _ hq))
      split_ifs with hc
      · exact max_le h (hall p (List.mem_cons_self _ _))
      · exact h

/-- The inner priority loop never exceeds 10. -/
theorem typeStep_le_ten (acc : Nat) (t : String) (h : acc ≤ 10) : typeStep acc t ≤ 10 :=
  foldl_max_bound t type_hierarchy acc h (by decide)

/-- The type priority of any type list is at most 10. -/
theorem get_type_priority_le_ten (tys : List String) : get_type_priority tys ≤ 10 := by
  unfold get_type_priority
  suffices hgen : ∀ (l : List String) (acc : Nat), acc ≤ 10 → l.foldl typeStep acc ≤ 10 by
    exact hgen tys 0 (by norm_num)
  intro l
  induction l with
  | nil => intro acc h; simpa using h
  | cons t rest ih =>
      intro acc h
      rw [List.foldl_cons]
      exact ih _ (typeStep_le_ten acc t h)

/-- C4 (corrected): union and intersection merges leave the score unset; the
confidence-based merge's scores lie in [0,1] whenever both per-source weights
`w` and `1-w` are nonnegative; the type-priority merge stores the integer
type priority, a value in [0,10], in `confidence_score`. -/
theorem c4_confidence_ranges (pk sm : List (String × RawEntity)) (w : ℚ) :
    (∀ m, union_merge pk sm = Except.ok m → ∀ p ∈ m, p.2.confidence_score = none) ∧
    (∀ m, intersection_merge pk sm = Except.ok m → ∀ p ∈ m, p.2.confidence_score = none) ∧
    (0 ≤ w → w ≤ 1 → ∀ m, confidence_based_merge pk sm w = Except.ok m →
      ∀ p ∈ m, ∃ q, p.2.confidence_score = some q ∧ 0 ≤ q ∧ q ≤ 1) ∧
    (∀ m, type_based_merge pk sm = Except.ok m →
      ∀ p ∈ m, ∃ q, p.2.confidence_score = some q ∧ 0 ≤ q ∧ q ≤ 10) := by
  refine ⟨?_, ?_, ?_, ?_⟩
  · intro m h
    exact union_merge_pred (fun e => e.confidence_score = none) (fun _ => True)
      (fun r e _ hc => create_score_none r "PrimeKG" e hc)
      (fun r e _ hc => create_score_none r "SemMed" e hc)
      (fun ex r e2 hP _ hmi => (mergeInto_score ex r e2 hmi).trans hP)
      pk sm (fun p _ => trivial) (fun p _ => trivial) m h
  · intro m h
    exact intersection_merge_pred (fun e => e.confidence_score = none) (fun _ => True)
      (fun pkr smr e _ _ hio => intersectOne_score pkr smr e hio)
      pk sm (fun p _ => trivial) (fun p _ => trivial) m h
  · intro hw0 hw1 m h
    refine confidence_merge_pred
      (fun e => ∃ q, e.confidence_score = some q ∧ 0 ≤ q ∧ q ≤ 1) (fun _ => True) w
      ?_ ?_ ?_ ?_ pk sm (fun p _ => trivial) (fun p _ => trivial) m h
    · intro r e _ hc
      obtain ⟨hlo, hhi⟩ := calculate_confidence_bounds e "PrimeKG" w hw0
      exact ⟨_, rfl, hlo, hhi⟩
    · intro r e _ hc
      have h0 : (0:ℚ) ≤ 1 - w := by linarith
      obtain ⟨hlo, hhi⟩ := calculate_confidence_bounds e "SemMed" (1 - w) h0
      exact ⟨_, rfl, hlo, hhi⟩
    · intro e s hP
      exact hP
    · intro ex ne hP
      exact hP
  · intro m h
    refine type_based_pred
      (fun e => ∃ q, e.confidence_score = some q ∧ 0 ≤ q ∧ q ≤ 10) (fun _ => True)
      ?_ ?_ ?_ pk sm (fun p _ => trivial) (fun p _ => trivial) m h
    · intro r e _ hc
      refine ⟨(get_type_priority e.types : ℚ), rfl, by positivity, ?_⟩
      exact_mod_cast get_type_priority_le_ten e.types
    · intro r e _ hc
      refine ⟨(get_type_priority e.types : ℚ), rfl, by positivity, ?_⟩
      exact_mod_cast get_type_priority_le_ten e.types
    · intro e s hP
      exact hP

/-- Witness for the amended C4 theorem, at the default weight 0.6 and two
concrete overlapping maps. -/
theorem c4_confidence_ranges_witness :
    ((0:ℚ) ≤ 6/10 ∧ (6/10:ℚ) ≤ 1) ∧
    (∀ m, confidence_based_merge c2pk c2sm (6/10) = Except.ok m →
      ∀ p ∈ m, ∃ q, p.2.confidence_score = some q ∧ 0 ≤ q ∧ q ≤ 1) :=
  ⟨⟨by norm_num, by norm_num⟩,
    (c4_confidence_ranges c2pk c2sm (6/10)).2.2.1 (by norm_num) (by norm_num)⟩

/-! ## Claim C6: union key set and size law -/

/-- A raw record has all required fields present. -/
def complete (r : RawEntity) : Bool :=
  match r.id with
  | none => false
  | some i =>
      i.identifier.isSome && i.label.isSome &&
        r.equivalent_identifiers.isSome && r.type.isSome

/-- Entity creation succeeds on complete records. -/
theorem create_ok_of_complete (r : RawEntity) (s : String) (h : complete r = true) :
    ∃ e, create_entity_from_normalized r s = Except.ok e := by
  obtain ⟨rid, req, rty⟩ := r
  cases rid with
  | none => exact absurd h (by simp [complete])
  | some i =>
      obtain ⟨iid, ilab⟩ := i
      cases iid with
      | none => exact absurd h (by simp [complete])
      | some idf =>
          cases ilab with
          | none => exact absurd h (by simp [complete])
          | some lab =>
              cases req with
              | none => exact absurd h (by simp [complete])
              | some eqs =>
                  cases rty with
                  | none => exact absurd h (by simp [complete])
                  | some tys => exact ⟨_, rfl⟩

/-- The overlap merge succeeds on complete records. -/
theorem mergeInto_ok_of_complete (ex : NormalizedEntity) (r : RawEntity)
    (h : complete r = true) : ∃ e2, mergeInto ex r = Except.ok e2 := by
  obtain ⟨rid, req, rty⟩ := r
  cases rid with
  | none => exact absurd h (by simp [complete])
  | some i =>
      cases req with
      | none => exact absurd h (by simp [complete])
      | some eqs =>
          cases rty with
          | none => exact absurd h (by simp [complete])
          | some tys => exact ⟨_, rfl⟩

/-- Unfolding the SemMed step on a key collision. -/
theorem mergeSemStep_eq_some (acc : List (String × NormalizedEntity)) (k : String)
    (r : RawEntity) (ex : NormalizedEntity) (hf : findVal acc k = some ex) :
    mergeSemStep acc k r =
      (do
        let merged ← mergeInto ex r
        pure (dictInsert acc k merged)) := by
  unfold mergeSemStep
  rw [hf]

/-- Unfolding the SemMed step on a fresh key. -/
theorem mergeSemStep_eq_none (acc : List (String × NormalizedEntity)) (k : String)
    (r : RawEntity) (hf : findVal acc k = none) :
    mergeSemStep acc k r =
      (do
        let e ← create_entity_from_normalized r "SemMed"
        pure (dictInsert acc k e)) := by
  unfold mergeSemStep
  rw [hf]

/-- Length after a dict assignment. -/
theorem length_dictInsert {α : Type} (m : List (String × α)) (k : String) (v : α) :
    (dictInsert m k v).length = if k ∈ keys m then m.length else m.length + 1 := by
  unfold dictInsert
  split_ifs <;> simp

/-- Inserting a key already in `A` changes nothing of the difference. -/
theorem insert_sdiff_mem (A R : Finset String) (k : String) (hk : k ∈ A) :
    insert k R \ A = R \ A := by
  ext x
  simp only [Finset.mem_sdiff, Finset.mem_insert]
  constructor
  · rintro ⟨hx | hx, hxa⟩
    · exact absurd (hx ▸ hk) hxa
    · exact ⟨hx, hxa⟩
  · rintro ⟨hx, hxa⟩
    exact ⟨Or.inr hx, hxa⟩

/-- Cardinality bookkeeping for a key not yet in `A`. -/
theorem card_sdiff_insert (A R : Finset String) (k : String) (hk : k ∉ A) :
    (insert k R \ A).card = (R \ (A ∪ {k})).card + 1 := by
  have h1 : insert k R \ A = insert k (R \ (A ∪ {k})) := by
    ext x
    simp only [Finset.mem_sdiff, Finset.mem_insert, Finset.mem_union,
      Finset.mem_singleton]
    constructor
    · rintro ⟨hx | hx, hxa⟩
      · exact Or.inl hx
      · by_cases hxk : x = k
        · exact Or.inl hxk
        · exact Or.inr ⟨hx, fun hor => hor.elim hxa hxk⟩
    · rintro (hx | ⟨hx, hxa⟩)
      · exact ⟨Or.inl hx, hx ▸ hk⟩
      · exact ⟨Or.inr hx, fun hxA => hxa (Or.inl hxA)⟩
  rw [h1, Finset.card_insert_of_not_mem]
  simp

/-- Key-set bookkeeping shared by both union phases. -/
theorem union_step_keyset (A R : Finset String) (k : String) :
    (if k ∈ A then A else A ∪ {k}) ∪ R = A ∪ insert k R := by
  split_ifs with hk
  · ext x
    simp only [Finset.mem_union, Finset.mem_insert]
    constructor
    · rintro (hx | hx)
      · exact Or.inl hx
      · exact Or.inr (Or.inr hx)
    · rintro (hx | hx | hx)
      · exact Or.inl hx
      · exact Or.inl (hx ▸ hk)
      · exact Or.inr hx
  · ext x
    simp only [Finset.mem_union, Finset.mem_insert, Finset.mem_singleton]
    constructor
    · rintro ((hx | hx) | hx)
      · exact Or.inl hx
      · exact Or.inr (Or.inl hx)
      · exact Or.inr (Or.inr hx)
    · rintro (hx | hx | hx)
      · exact Or.inl (Or.inl hx)
      · exact Or.inl (Or.inr hx)
      · exact Or.inr hx

/-- Size bookkeeping shared by both union phases. -/
theorem union_step_card (A R : Finset String) (k : String) :
    (if k ∈ A then 0 else 1) + (R \ (if k ∈ A then A else A ∪ {k})).card
      = (insert k R \ A).card := by
  split_ifs with hk
  · rw [insert_sdiff_mem A R k hk]
    omega
  · rw [card_sdiff_insert A R k hk]
    omega

/-- Finset bookkeeping of one dict assignment. -/
theorem dictInsert_finset_facts {α : Type} (acc : List (String × α)) (k : String) (e : α) :
    (keys (dictInsert acc k e)).toFinset =
      (if k ∈ (keys acc).toFinset then (keys acc).toFinset
       else (keys acc).toFinset ∪ {k}) ∧
    (dictInsert acc k e).length =
      acc.length + (if k ∈ (keys acc).toFinset then 0 else 1) := by
  constructor
  · rw [keys_dictInsert]
    by_cases hk : k ∈ keys acc
    · rw [if_pos hk, if_pos (List.mem_toFinset.mpr hk)]
    · rw [if_neg hk, if_neg (fun hx => hk (List.mem_toFinset.mp hx))]
      ext x
      simp [List.mem_toFinset, Or.comm]
  · rw [length_dictInsert]
    by_cases hk : k ∈ keys acc
    · rw [if_pos hk, if_pos (List.mem_toFinset.mpr hk)]
      omega
    · rw [if_neg hk, if_neg (fun hx => hk (List.mem_toFinset.mp hx))]

/-- Bookkeeping combination for a head key followed by the rest of a phase. -/
theorem phase_step_combine (acc acc2 m : List (String × NormalizedEntity))
    (k : String) (rest : List (String × RawEntity))
    (hkd : (keys acc2).toFinset =
      (if k ∈ (keys acc).toFinset then (keys acc).toFinset
       else (keys acc).toFinset ∪ {k}))
    (hld : acc2.length = acc.length + (if k ∈ (keys acc).toFinset then 0 else 1))
    (hkeys : (keys m).toFinset = (keys acc2).toFinset ∪ (keys rest).toFinset)
    (hlen : m.length = acc2.length + ((keys rest).toFinset \ (keys acc2).toFinset).card) :
    (keys m).toFinset = (keys acc).toFinset ∪ insert k (keys rest).toFinset ∧
    m.length = acc.length + (insert k (keys rest).toFinset \ (keys acc).toFinset).card := by
  constructor
  · rw [hkeys, hkd]
    exact union_step_keyset (keys acc).toFinset (keys rest).toFinset k
  · rw [hlen, hkd, hld]
    rw [← union_step_card (keys acc).toFinset (keys rest).toFinset k]
    omega

/-- The PrimeKG phase succeeds on complete inputs, its key set is the union
of the accumulator's and the input's, and its size grows by the number of
new keys. -/
theorem addEntities_ok (src : String) :
    ∀ (l : List (String × RawEntity)) (acc : List (String × NormalizedEntity)),
      (∀ p ∈ l, complete p.2 = true) →
      ∃ m, addEntities src acc l = Except.ok m ∧
        (keys m).toFinset = (keys acc).toFinset ∪ (keys l).toFinset ∧
        m.length = acc.length + ((keys l).toFinset \ (keys acc).toFinset).card := by
  intro l
  induction l with
  | nil =>
      intro acc hc
      refine ⟨acc, rfl, by simp [keys], by simp [keys]⟩
  | cons q rest ih =>
      obtain ⟨k, r⟩ := q
      intro acc hc
      obtain ⟨e, he⟩ := create_ok_of_complete r src (hc (k, r) (List.mem_cons_self _ _))
      obtain ⟨m, hm, hkeys, hlen⟩ :=
        ih (dictInsert acc k e) (fun p hp => hc p (List.mem_cons_of_mem _ hp))
      obtain ⟨hkd, hld⟩ := dictInsert_finset_facts acc k e
      obtain ⟨hk2, hl2⟩ := phase_step_combine acc (dictInsert acc k e) m k rest hkd hld hkeys hlen
      have hkc : (keys ((k, r) :: rest)).toFinset = insert k (keys rest).toFinset := by
        simp [keys]
      refine ⟨m, ?_, ?_, ?_⟩
      · unfold addEntities
        simp only [he, except_bind_ok]
        exact hm
      · rw [hkc]
        exact hk2
      · rw [hkc]
        exact hl2

/-- The SemMed phase succeeds on complete inputs, with the same key-set and
size bookkeeping. -/
theorem mergeSemMed_ok :
    ∀ (l : List (String × RawEntity)) (acc : List (String × NormalizedEntity)),
      (∀ p ∈ l, complete p.2 = true) →
      ∃ m, mergeSemMed acc l = Except.ok m ∧
        (keys m).toFinset = (keys acc).toFinset ∪ (keys l).toFinset ∧
        m.length = acc.length + ((keys l).toFinset \ (keys acc).toFinset).card := by
  intro l
  induction l with
  | nil =>
      intro acc hc
      refine ⟨acc, rfl, by simp [keys], by simp [keys]⟩
  | cons q rest ih =>
      obtain ⟨k, r⟩ := q
      intro acc hc
      have hcr : complete r = true := hc (k, r) (List.mem_cons_self _ _)
      have hkc : (keys ((k, r) :: rest)).toFinset = insert k (keys rest).toFinset := by
        simp [keys]
      cases hf : findVal acc k with
      | some ex =>
          obtain ⟨e2, he2⟩ := mergeInto_ok_of_complete ex r hcr
          obtain ⟨m, hm, hkeys, hlen⟩ :=
            ih (dictInsert acc k e2) (fun p hp => hc p (List.mem_cons_of_mem _ hp))
          obtain ⟨hkd, hld⟩ := dictInsert_finset_facts acc k e2
          obtain ⟨hk2, hl2⟩ :=
            phase_step_combine acc (dictInsert acc k e2) m k rest hkd hld hkeys hlen
          refine ⟨m, ?_, ?_, ?_⟩
          · unfold mergeSemMed
            rw [mergeSemStep_eq_some acc k r ex hf]
            simp only [he2, except_bind_ok, except_pure]
            exact hm
          · rw [hkc]
            exact hk2
          · rw [hkc]
            exact hl2
      | none =>
          obtain ⟨e, he⟩ := create_ok_of_complete r "SemMed" hcr
          obtain ⟨m, hm, hkeys, hlen⟩ :=
            ih (dictInsert acc k e) (fun p hp => hc p (List.mem_cons_of_mem _ hp))
          obtain ⟨hkd, hld⟩ := dictInsert_finset_facts acc k e
          obtain ⟨hk2, hl2⟩ :=
            phase_step_combine acc (dictInsert acc k e) m k rest hkd hld hkeys hlen
          refine ⟨m, ?_, ?_, ?_⟩
          · unfold mergeSemMed
            rw [mergeSemStep_eq_none acc k r hf]
            simp only [he, except_bind_ok, except_pure]
            exact hm
          · rw [hkc]
            exact hk2
          · rw [hkc]
            exact hl2

/-- C6 (confirmed): for entity maps (nodup keys, complete records) the union
merge succeeds, its key set is the union of the two input key sets, and its
size is `|A| + |B| - |A ∩ B|`. -/
theorem c6_union_size_law (pk sm : List (String × RawEntity))
    (h1 : (keys pk).Nodup) (h2 : (keys sm).Nodup)
    (hc1 : ∀ p ∈ pk, complete p.2 = true) (hc2 : ∀ p ∈ sm, complete p.2 = true) :
    ∃ m, union_merge pk sm = Except.ok m ∧
      (keys m).toFinset = (keys pk).toFinset ∪ (keys sm).toFinset ∧
      m.length = pk.length + sm.length -
        ((keys pk).toFinset ∩ (keys sm).toFinset).card := by
  obtain ⟨base, hb, hbk, hbl⟩ := addEntities_ok "PrimeKG" pk [] hc1
  obtain ⟨m, hm, hmk, hml⟩ := mergeSemMed_ok sm base hc2
  have hbk2 : (keys base).toFinset = (keys pk).toFinset := by
    rw [hbk]
    simp [keys]
  have hbl2 : base.length = pk.length := by
    rw [hbl]
    simp only [keys, List.map_nil, List.toFinset_nil, List.length_nil,
      Finset.sdiff_empty, Nat.zero_add]
    have h1b : (List.map Prod.fst pk).Nodup := h1
    rw [List.toFinset_card_of_nodup h1b, List.length_map]
  refine ⟨m, ?_, ?_, ?_⟩
  · unfold union_merge
    simp only [hb, except_bind_ok]
    exact hm
  · rw [hmk, hbk2]
  · have hinter : ((keys sm).toFinset \ (keys pk).toFinset).card +
        ((keys sm).toFinset ∩ (keys pk).toFinset).card = (keys sm).toFinset.card :=
      Finset.card_sdiff_add_card_inter _ _
    have hsmcard : (keys sm).toFinset.card = sm.length := by
      rw [List.toFinset_card_of_nodup h2]
      simp [keys]
    have hcomm : (keys sm).toFinset ∩ (keys pk).toFinset =
        (keys pk).toFinset ∩ (keys sm).toFinset := Finset.inter_comm _ _
    rw [hml, hbk2, hbl2]
    rw [hcomm] at hinter
    omega

/-- Witness for C6 at two concrete two-entity maps sharing one key: the
union has three entities. -/
theorem c6_union_size_law_witness :
    ((keys c6pk).Nodup ∧ (keys c6sm).Nodup ∧
      (∀ p ∈ c6pk, complete p.2 = true) ∧ (∀ p ∈ c6sm, complete p.2 = true)) ∧
    ∃ m, union_merge c6pk c6sm = Except.ok m ∧
      (keys m).toFinset = (keys c6pk).toFinset ∪ (keys c6sm).toFinset ∧
      m.length = c6pk.length + c6sm.length -
        ((keys c6pk).toFinset ∩ (keys c6sm).toFinset).card :=
  ⟨⟨by decide, by decide, by decide, by decide⟩,
    c6_union_size_law c6pk c6sm (by decide) (by decide) (by decide) (by decide)⟩

/-! ## Claim C8: the type-priority representative -/

/-- Spec-side ranking of one type tag: the maximal hierarchy priority whose
name is a string prefix of the tag; an unranked tag contributes 0. -/
def specTypeRank (t : String) : Nat :=
  type_hierarchy.foldl
    (fun acc p => if p.1.data.isPrefixOf t.data then max acc p.2 else acc) 0

/-- Spec-side priority of an entity: the maximum ranking over its own types. -/
def specPriority (types : List String) : Nat :=
  (types.map specTypeRank).foldl max 0

/-- The maximal spec priority over a group. -/
def grpMaxPrio (grp : List NormalizedEntity) : Nat :=
  (grp.map (fun e => specPriority e.types)).foldl max 0

/-- Spec-side representative of a group: the first member (in group order,
i.e. left-then-right source order and input enumeration order) attaining the
maximal priority. -/
def specRep (grp : List NormalizedEntity) : Option NormalizedEntity :=
  grp.find? (fun e => decide (specPriority e.types = grpMaxPrio grp))

/-- Equation lemma: the Python max scan on a cons cell. -/
theorem pickBest_cons (b e : NormalizedEntity) (l : List NormalizedEntity) :
    pickBest b (e :: l) = if scoreOf b < scoreOf e then pickBest e l else pickBest b l := rfl

/-- Equation lemma: the Python max scan on the empty list. -/
theorem pickBest_nil (b : NormalizedEntity) : pickBest b [] = b := rfl

/-- Pulling a max out of a guarded Nat fold. -/
theorem guardedFold_max_pull (t : String) :
    ∀ (l : List (String × Nat)) (a c : Nat),
      l.foldl (fun acc p => if p.1.data.isPrefixOf t.data then max acc p.2 else acc) (max a c)
        = max a
          (l.foldl (fun acc p => if p.1.data.isPrefixOf t.data then max acc p.2 else acc) c) := by
  intro l
  induction l with
  | nil => intro a c; rfl
  | cons p rest ih =>
      intro a c
      rw [List.foldl_cons, List.foldl_cons]
      split_ifs with hc
      · rw [max_assoc, ih]
      · exact ih a c

/-- The inner priority loop is a max with the spec ranking. -/
theorem typeStep_eq_max (a : Nat) (t : String) : typeStep a t = max a (specTypeRank t) := by
  unfold typeStep specTypeRank
  have h : a = max a 0 := (Nat.max_zero a).symm
  conv_lhs => rw [h]
  exact guardedFold_max_pull t type_hierarchy a 0

/-- The code's nested priority loop equals the spec's maximum of rankings. -/
theorem get_type_priority_eq_spec (tys : List String) :
    get_type_priority tys = specPriority tys := by
  unfold get_type_priority specPriority
  rw [List.foldl_map]
  have h : ∀ (l : List String) (a : Nat),
      l.foldl typeStep a = l.foldl (fun x y => max x (specTypeRank y)) a := by
    intro l
    induction l with
    | nil => intro a; rfl
    | cons t rest ih =>
        intro a
        rw [List.foldl_cons, List.foldl_cons, typeStep_eq_max, ih]
  exact h tys 0

/-- The running maximum of the Python max scan. -/
def maxScoreOf (b : NormalizedEntity) (l : List NormalizedEntity) : ℚ :=
  (l.map scoreOf).foldl max (scoreOf b)

/-- Pulling a max out of a rational max fold. -/
theorem foldl_max_pull_q : ∀ (l : List ℚ) (a c : ℚ),
    l.foldl max (max a c) = max c (l.foldl max a) := by
  intro l
  induction l with
  | nil => intro a c; exact max_comm a c
  | cons x rest ih =>
      intro a c
      rw [List.foldl_cons, List.foldl_cons, sup_right_comm a c x]
      exact ih (max a x) c

/-- Head decomposition of the running maximum, head kept outside. -/
theorem maxScoreOf_cons_left (b e : NormalizedEntity) (l : List NormalizedEntity) :
    maxScoreOf b (e :: l) = max (scoreOf e) (maxScoreOf b l) := by
  unfold maxScoreOf
  rw [List.map_cons, List.foldl_cons]
  exact foldl_max_pull_q (l.map scoreOf) (scoreOf b) (scoreOf e)

/-- Head decomposition of the running maximum, start kept outside. -/
theorem maxScoreOf_cons_swap (b e : NormalizedEntity) (l : List NormalizedEntity) :
    maxScoreOf b (e :: l) = max (scoreOf b) (maxScoreOf e l) := by
  unfold maxScoreOf
  rw [List.map_cons, List.foldl_cons, max_comm (scoreOf b) (scoreOf e)]
  exact foldl_max_pull_q (l.map scoreOf) (scoreOf e) (scoreOf b)

/-- The start of the scan is below the running maximum. -/
theorem le_maxScoreOf_self : ∀ (l : List NormalizedEntity) (b : NormalizedEntity),
    scoreOf b ≤ maxScoreOf b l := by
  intro l
  induction l with
  | nil => intro b; exact le_refl _
  | cons e rest ih =>
      intro b
      rw [maxScoreOf_cons_swap]
      exact le_max_left _ _

/-- Every member of the scan is below the running maximum. -/
theorem le_maxScoreOf_mem : ∀ (l : List NormalizedEntity) (b x : NormalizedEntity),
    x ∈ l → scoreOf x ≤ maxScoreOf b l := by
  intro l
  induction l with
  | nil => intro b x hx; cases hx
  | cons e rest ih =>
      intro b x hx
      rcases List.mem_cons.mp hx with h | h
      · rw [h, maxScoreOf_cons_left]
        exact le_max_left _ _
      · rw [maxScoreOf_cons_swap]
        exact le_trans (ih e x h) (le_max_right _ _)

/-- The scan keeps its start when nothing is strictly greater. -/
theorem pickBest_of_dominant : ∀ (l : List NormalizedEntity) (b : NormalizedEntity),
    (∀ x ∈ l, scoreOf x ≤ scoreOf b) → pickBest b l = b := by
  intro l
  induction l with
  | nil => intro b h; rfl
  | cons e rest ih =>
      intro b h
      rw [pickBest_cons, if_neg (not_lt.mpr (h e (List.mem_cons_self _ _)))]
      exact ih b (fun x hx => h x (List.mem_cons_of_mem _ hx))

/-- A start strictly below the tail's maximum does not influence the scan. -/
theorem pickBest_shift : ∀ (rest : List NormalizedEntity) (r x : NormalizedEntity),
    scoreOf x < maxScoreOf r rest → pickBest x (r :: rest) = pickBest r rest := by
  intro rest
  induction rest with
  | nil =>
      intro r x hx
      have hx2 : scoreOf x < scoreOf r := hx
      rw [pickBest_cons, if_pos hx2]
  | cons t rest2 ih =>
      intro r x hx
      by_cases hxr : scoreOf x < scoreOf r
      · rw [pickBest_cons, if_pos hxr]
      · have hsr : scoreOf r ≤ scoreOf x := not_lt.mp hxr
        have hM : maxScoreOf r (t :: rest2) = max (scoreOf r) (maxScoreOf t rest2) :=
          maxScoreOf_cons_swap r t rest2
        have hK : maxScoreOf r (t :: rest2) = maxScoreOf t rest2 := by
          rcases max_choice (scoreOf r) (maxScoreOf t rest2) with h | h
          · exfalso
            rw [hM, h] at hx
            exact absurd (lt_of_le_of_lt hsr hx) (lt_irrefl _)
          · rw [hM, h]
        have hxK : scoreOf x < maxScoreOf t rest2 := by
          rw [← hK]
          exact hx
        have hrK : scoreOf r < maxScoreOf t rest2 :=
          lt_of_le_of_lt hsr hxK
        rw [pickBest_cons, if_neg hxr, ih t x hxK, ih t r hrK]

/-- The first scanned element attaining the running maximum is exactly the
result of the Python max scan (ties keep the first). -/
theorem find?_maxScore : ∀ (l : List NormalizedEntity) (b : NormalizedEntity),
    (b :: l).find? (fun e => decide (scoreOf e = maxScoreOf b l)) = some (pickBest b l) := by
  intro l
  induction l with
  | nil =>
      intro b
      rw [pickBest_nil]
      apply List.find?_cons_of_pos
      simp [maxScoreOf]
  | cons e rest ih =>
      intro b
      by_cases hb : scoreOf b = maxScoreOf b (e :: rest)
      · rw [List.find?_cons_of_pos _ (by simp [hb])]
        have hdom : ∀ x ∈ e :: rest, scoreOf x ≤ scoreOf b := by
          intro x hx
          rw [hb]
          exact le_maxScoreOf_mem (e :: rest) b x hx
        rw [pickBest_of_dominant (e :: rest) b hdom]
      · have hlt : scoreOf b < maxScoreOf b (e :: rest) :=
          lt_of_le_of_ne (le_maxScoreOf_self (e :: rest) b) hb
        have hM : maxScoreOf b (e :: rest) = maxScoreOf e rest := by
          rcases max_choice (scoreOf b) (maxScoreOf e rest) with h | h
          · exfalso
            rw [maxScoreOf_cons_swap, h] at hlt
            exact lt_irrefl _ hlt
          · rw [maxScoreOf_cons_swap, h]
        rw [List.find?_cons_of_neg _ (by simp [hb]), hM, ih e]
        have hbK : scoreOf b < maxScoreOf e rest := by
          rw [← hM]
          exact hlt
        rw [pickBest_shift rest e b hbK]

/-- Two predicates agreeing on every member search alike. -/
theorem find?_congr_mem {α : Type} : ∀ (l : List α) (p q : α → Bool),
    (∀ x ∈ l, p x = q x) → l.find? p = l.find? q := by
  intro l
  induction l with
  | nil => intro p q h; rfl
  | cons a rest ih =>
      intro p q h
      have ha := h a (List.mem_cons_self _ _)
      cases hpa : p a with
      | true =>
          rw [List.find?_cons_of_pos _ hpa, List.find?_cons_of_pos _ (by rw [← ha]; exact hpa)]
      | false =>
          rw [List.find?_cons_of_neg _ (by simp [hpa]),
            List.find?_cons_of_neg _ (by simp [← ha, hpa])]
          exact ih p q (fun x hx => h x (List.mem_cons_of_mem _ hx))

/-- Every scored entity carries its spec priority (as a rational) as score. -/
theorem buildScored_scores (src : String) (l : List (String × RawEntity))
    (m : List (String × NormalizedEntity)) (h : buildScored src l = Except.ok m) :
    ∀ p ∈ m, p.2.confidence_score = some ((specPriority p.2.types : ℚ)) := by
  refine buildScored_pred
    (fun e => e.confidence_score = some ((specPriority e.types : ℚ)))
    (fun _ => True) src ?_ l (fun _ _ => trivial) m h
  intro r e _ hc
  show some ((get_type_priority e.types : ℚ)) = some ((specPriority e.types : ℚ))
  rw [get_type_priority_eq_spec]

/-- The Nat-to-rational cast, named to keep elaboration predictable in list
maps. -/
def castQ (n : Nat) : ℚ := (n : ℚ)

/-- Casting a Nat max fold into the rationals. -/
theorem foldl_max_cast : ∀ (nl : List Nat) (a : Nat),
    ((nl.foldl max a : Nat) : ℚ) = (nl.map castQ).foldl max ((a : Nat) : ℚ) := by
  intro nl
  induction nl with
  | nil => intro a; rfl
  | cons n rest ih =>
      intro a
      rw [List.foldl_cons, List.map_cons, List.foldl_cons, ih]
      show _ = List.foldl max (max ((a : Nat) : ℚ) ((n : Nat) : ℚ)) _
      rw [← Nat.cast_max]

/-- On a group whose scores are the cast spec priorities, the running maximum
of the max scan is the cast of the maximal spec priority. -/
theorem maxScore_eq_grpMax (l : List NormalizedEntity) (b : NormalizedEntity)
    (hlink : ∀ x ∈ b :: l, scoreOf x = ((specPriority x.types : ℚ))) :
    maxScoreOf b l = ((grpMaxPrio (b :: l) : ℚ)) := by
  unfold maxScoreOf grpMaxPrio
  rw [List.map_cons, List.foldl_cons, Nat.zero_max, foldl_max_cast]
  have h1 : scoreOf b = ((specPriority b.types : ℚ)) := hlink b (List.mem_cons_self _ _)
  have h2 : l.map scoreOf
      = ((l.map (fun e => specPriority e.types)).map castQ) := by
    rw [List.map_map]
    exact List.map_congr_left (fun x hx => hlink x (List.mem_cons_of_mem _ hx))
  rw [h1, h2]

/-- Every member of a key's group carries its cast spec priority as score. -/
theorem group_scores_spec (pkE smE : List (String × NormalizedEntity))
    (hpk : ∀ p ∈ pkE, p.2.confidence_score = some ((specPriority p.2.types : ℚ)))
    (hsm : ∀ p ∈ smE, p.2.confidence_score = some ((specPriority p.2.types : ℚ)))
    (k : String) :
    ∀ x ∈ groupOf (pkE ++ smE) k, scoreOf x = ((specPriority x.types : ℚ)) := by
  intro x hx
  obtain ⟨q, hq1, hq2⟩ := List.mem_map.mp hx
  have hq3 : q ∈ pkE ++ smE := List.mem_of_mem_filter hq1
  have hsc : q.2.confidence_score = some ((specPriority q.2.types : ℚ)) := by
    rcases List.mem_append.mp hq3 with h | h
    · exact hpk q h
    · exact hsm q h
  rw [← hq2]
  unfold scoreOf
  rw [hsc]
  rfl

/-- First-occurrence deduplication preserves membership. -/
theorem mem_firstOccs (l : List String) (x : String) : x ∈ firstOccs l ↔ x ∈ l := by
  unfold firstOccs
  simp

/-- A key's group is nonempty exactly when the key occurs in the map. -/
theorem groupOf_ne_nil (all : List (String × NormalizedEntity)) (k : String) :
    groupOf all k ≠ [] ↔ k ∈ keys all := by
  have hiff : (∃ p ∈ all, p.1 = k) ↔ k ∈ List.map Prod.fst all := by
    constructor
    · rintro ⟨p, hp, hpk⟩
      exact List.mem_map.mpr ⟨p, hp, hpk⟩
    · intro h
      obtain ⟨p, hp, hpk⟩ := List.mem_map.mp h
      exact ⟨p, hp, hpk⟩
  constructor
  · intro h
    have hf : all.filter (fun p => decide (p.1 = k)) ≠ [] := by
      intro hnil
      apply h
      unfold groupOf
      rw [hnil]
      rfl
    obtain ⟨p, hp⟩ := List.exists_mem_of_ne_nil _ hf
    have hmf := List.mem_filter.mp hp
    exact hiff.mp ⟨p, hmf.1, by simpa using hmf.2⟩
  · intro h hnil
    obtain ⟨p, hp, hpk⟩ := hiff.mpr h
    unfold groupOf at hnil
    rw [List.map_eq_nil_iff] at hnil
    have := List.filter_eq_nil_iff.mp hnil p hp
    simp [hpk] at this

/-- C8 (confirmed): whenever the scoring of both inputs succeeds, the
type-priority merge succeeds, its keys are exactly the keys of both scored
inputs, and every output entity is the spec representative of its group —
the first group member (PrimeKG before SemMed, in input enumeration order)
attaining the maximal priority, where the priority is the maximum hierarchy
ranking over the entity's own types (unranked types contribute 0) — with
every group member's source set unioned in. -/
theorem c8_type_priority_representative (pk sm : List (String × RawEntity))
    (pkE smE : List (String × NormalizedEntity))
    (hpk : buildScored "PrimeKG" pk = Except.ok pkE)
    (hsm : buildScored "SemMed" sm = Except.ok smE) :
    ∃ m, type_based_merge pk sm = Except.ok m ∧
      (∀ k, k ∈ keys m ↔ k ∈ keys (pkE ++ smE)) ∧
      (∀ k e, (k, e) ∈ m →
        ∃ rep, specRep (groupOf (pkE ++ smE) k) = some rep ∧
          e = { rep with
            source_databases :=
              (groupOf (pkE ++ smE) k).foldl (fun s x => s ∪ x.source_databases)
                rep.source_databases }) := by
  have hlink : ∀ k, ∀ x ∈ groupOf (pkE ++ smE) k,
      scoreOf x = ((specPriority x.types : ℚ)) :=
    fun k => group_scores_spec pkE smE
      (buildScored_scores "PrimeKG" pk pkE hpk)
      (buildScored_scores "SemMed" sm smE hsm) k
  refine ⟨(firstOccs (keys (pkE ++ smE))).filterMap (fun k =>
      match groupOf (pkE ++ smE) k with
      | [] => none
      | [e] => some (k, e)
      | e :: rest => some (k, mkRep e rest)), ?_, ?_, ?_⟩
  · unfold type_based_merge
    simp only [hpk, hsm, except_bind_ok, except_pure]
  · intro k
    constructor
    · intro hk
      obtain ⟨p, hp, hpk2⟩ := List.mem_map.mp hk
      obtain ⟨k2, hk2, hfk⟩ := List.mem_filterMap.mp hp
      have hp1 : p.1 = k2 := by
        revert hfk
        cases groupOf (pkE ++ smE) k2 with
        | nil => intro hfk; exact Option.noConfusion hfk
        | cons e rest =>
            cases rest with
            | nil =>
                intro hfk
                rw [← Option.some.inj hfk]
            | cons e2 rest2 =>
                intro hfk
                rw [← Option.some.inj hfk]
      rw [← hpk2, hp1]
      exact (mem_firstOccs _ _).mp hk2
    · intro hk
      have hk1 : k ∈ firstOccs (keys (pkE ++ smE)) := (mem_firstOccs _ _).mpr hk
      have hne : groupOf (pkE ++ smE) k ≠ [] := (groupOf_ne_nil _ _).mpr hk
      revert hne
      cases hg : groupOf (pkE ++ smE) k with
      | nil => intro hne; exact absurd rfl hne
      | cons e rest =>
          intro hne
          cases rest with
          | nil =>
              apply List.mem_map.mpr
              refine ⟨(k, e), ?_, rfl⟩
              apply List.mem_filterMap.mpr
              refine ⟨k, hk1, ?_⟩
              rw [hg]
          | cons e2 rest2 =>
              apply List.mem_map.mpr
              refine ⟨(k, mkRep e (e2 :: rest2)), ?_, rfl⟩
              apply List.mem_filterMap.mpr
              refine ⟨k, hk1, ?_⟩
              rw [hg]
  · intro k e hke
    obtain ⟨k2, hk2, hfk⟩ := List.mem_filterMap.mp hke
    revert hfk
    cases hg : groupOf (pkE ++ smE) k2 with
    | nil => intro hfk; exact Option.noConfusion hfk
    | cons e0 rest =>
        cases rest with
        | nil =>
            intro hfk
            have hinj := Option.some.inj hfk
            have hkk : k2 = k := congrArg Prod.fst hinj
            have hee : e0 = e := congrArg Prod.snd hinj
            subst hkk
            subst hee
            refine ⟨e0, ?_, ?_⟩
            · rw [hg]
              unfold specRep
              apply List.find?_cons_of_pos
              have hone : grpMaxPrio [e0] = specPriority e0.types := by
                unfold grpMaxPrio
                simp [Nat.zero_max]
              simp [hone]
            · rw [hg]
              simp only [List.foldl_cons, List.foldl_nil]
              rw [Finset.union_self]
        | cons e1 rest2 =>
            intro hfk
            have hinj := Option.some.inj hfk
            have hkk : k2 = k := congrArg Prod.fst hinj
            have hee : mkRep e0 (e1 :: rest2) = e := congrArg Prod.snd hinj
            subst hkk
            rw [← hee]
            have hlk := hlink k2
            rw [hg] at hlk
            refine ⟨pickBest e0 (e1 :: rest2), ?_, ?_⟩
            · rw [hg]
              unfold specRep
              have hMq : maxScoreOf e0 (e1 :: rest2)
                  = ((grpMaxPrio (e0 :: e1 :: rest2) : ℚ)) :=
                maxScore_eq_grpMax (e1 :: rest2) e0 hlk
              have hcongr : (e0 :: e1 :: rest2).find?
                    (fun x => decide (specPriority x.types = grpMaxPrio (e0 :: e1 :: rest2)))
                  = (e0 :: e1 :: rest2).find?
                    (fun x => decide (scoreOf x = maxScoreOf e0 (e1 :: rest2))) := by
                apply find?_congr_mem
                intro x hx
                apply decide_eq_decide.mpr
                rw [hlk x hx, hMq]
                exact Nat.cast_inj.symm
              rw [hcongr, find?_maxScore]
            · rw [hg]
              rfl

/-- Witness for C8 at a concrete overlapping pair: the NamedThing entity
(priority 1) of the left source loses to the Gene entity (priority 10) of
the right source. -/
theorem c8_type_priority_representative_witness :
    (buildScored "PrimeKG" c8pk = Except.ok c8pkE ∧
      buildScored "SemMed" c8sm = Except.ok c8smE) ∧
    ∃ m, type_based_merge c8pk c8sm = Except.ok m ∧
      (∀ k, k ∈ keys m ↔ k ∈ keys (c8pkE ++ c8smE)) ∧
      (∀ k e, (k, e) ∈ m →
        ∃ rep, specRep (groupOf (c8pkE ++ c8smE) k) = some rep ∧
          e = { rep with
            source_databases :=
              (groupOf (c8pkE ++ c8smE) k).foldl (fun s x => s ∪ x.source_databases)
                rep.source_databases }) :=
  ⟨⟨rfl, rfl⟩, c8_type_priority_representative c8pk c8sm c8pkE c8smE rfl rfl⟩

/-! ## Claim C3: amended theorem -/

/-- The overlap merge raises whenever the raw record lacks `type` or
`equivalent_identifiers` (the only fields the overlap branch reads). -/
theorem mergeInto_error_of_missing (ex : NormalizedEntity) (r : RawEntity)
    (h : r.type = none ∨ r.equivalent_identifiers = none) :
    ∃ msg, mergeInto ex r = Except.error msg := by
  cases hmi : mergeInto ex r with
  | error msg => exact ⟨msg, rfl⟩
  | ok e2 =>
      exfalso
      obtain ⟨tys, eqs, ht, he, _⟩ := mergeInto_ok_elim ex r e2 hmi
      rcases h with h1 | h1
      · rw [h1] at ht
        exact Option.noConfusion ht
      · rw [h1] at he
        exact Option.noConfusion he

/-- One SemMed union step raises on a record lacking `type` or
`equivalent_identifiers`, on either branch. -/
theorem mergeSemStep_error (acc : List (String × NormalizedEntity)) (k : String)
    (r : RawEntity) (h : r.type = none ∨ r.equivalent_identifiers = none) :
    ∃ msg, mergeSemStep acc k r = Except.error msg := by
  cases hf : findVal acc k with
  | some ex =>
      obtain ⟨msg, hm⟩ := mergeInto_error_of_missing ex r h
      refine ⟨msg, ?_⟩
      rw [mergeSemStep_eq_some acc k r ex hf, hm, except_bind_error]
  | none =>
      have hmiss : missingRequired r := by
        rcases h with h1 | h1
        · exact Or.inr (Or.inr (Or.inr h1))
        · exact Or.inr (Or.inr (Or.inl h1))
      obtain ⟨msg, hc⟩ := create_error_of_missing r "SemMed" hmiss
      refine ⟨msg, ?_⟩
      rw [mergeSemStep_eq_none acc k r hf, hc, except_bind_error]

/-- The SemMed phase raises as soon as any of its records lacks `type` or
`equivalent_identifiers`. -/
theorem mergeSemMed_error :
    ∀ (l : List (String × RawEntity)) (acc : List (String × NormalizedEntity))
      (k : String) (r : RawEntity), (k, r) ∈ l →
      (r.type = none ∨ r.equivalent_identifiers = none) →
      ∃ msg, mergeSemMed acc l = Except.error msg := by
  intro l
  induction l with
  | nil => intro acc k r hmem; cases hmem
  | cons q rest ih =>
      obtain ⟨k0, r0⟩ := q
      intro acc k r hmem hmiss
      rcases List.mem_cons.mp hmem with h1 | h1
      · have hr0 : r0 = r := congrArg Prod.snd h1.symm
        obtain ⟨msg, hs⟩ := mergeSemStep_error acc k0 r0 (hr0.symm ▸ hmiss)
        refine ⟨msg, ?_⟩
        unfold mergeSemMed
        rw [hs, except_bind_error]
      · cases hs : mergeSemStep acc k0 r0 with
        | error msg =>
            refine ⟨msg, ?_⟩
            unfold mergeSemMed
            rw [hs, except_bind_error]
        | ok acc2 =>
            obtain ⟨msg, hmsg⟩ := ih acc2 k r h1 hmiss
            refine ⟨msg, ?_⟩
            unfold mergeSemMed
            rw [hs, except_bind_ok]
            exact hmsg

/-- C3 (corrected): the merge raises instead of excluding and reporting.  A
left-input record missing any required field (`id`, `id.identifier`,
`equivalentIdentifiers` or `types`) makes the whole union merge raise with
no output, and so does a right-input record missing `equivalentIdentifiers`
or `types` (read on both branches) — but a right-input record missing only
its `id` object is silently merged when its key collides with a left key,
since the overlap branch never reads `id`. -/
theorem c3_missing_field_raises (pk sm : List (String × RawEntity))
    (k : String) (r : RawEntity) :
    ((k, r) ∈ pk → missingRequired r → ∃ msg, union_merge pk sm = Except.error msg) ∧
    ((k, r) ∈ sm → (r.type = none ∨ r.equivalent_identifiers = none) →
      ∃ msg, union_merge pk sm = Except.error msg) ∧
    (union_merge c3pk2 c3sm2).isOk = true := by
  refine ⟨?_, ?_, rfl⟩
  · intro hmem hmiss
    obtain ⟨msg, hmsg⟩ := addEntities_error "PrimeKG" pk [] k r hmem hmiss
    refine ⟨msg, ?_⟩
    unfold union_merge
    rw [hmsg, except_bind_error]
  · intro hmem hmiss
    cases hb : addEntities "PrimeKG" [] pk with
    | error msg =>
        refine ⟨msg, ?_⟩
        unfold union_merge
        rw [hb, except_bind_error]
    | ok base =>
        obtain ⟨msg, hmsg⟩ := mergeSemMed_error sm base k r hmem hmiss
        refine ⟨msg, ?_⟩
        unfold union_merge
        rw [hb, except_bind_ok]
        exact hmsg

/-- Witness for the amended C3 theorem: the record missing its `type` field
makes the union merge raise both as a left input and as a right input. -/
theorem c3_missing_field_raises_witness :
    ((("X:1", c3NoType) ∈ c3pk) ∧ missingRequired c3NoType ∧ c3NoType.type = none) ∧
    (∃ msg, union_merge c3pk [] = Except.error msg) ∧
    (∃ msg, union_merge [] c3pk = Except.error msg) :=
  ⟨⟨by decide, Or.inr (Or.inr (Or.inr rfl)), rfl⟩,
    (c3_missing_field_raises c3pk [] "X:1" c3NoType).1 (by decide)
      (Or.inr (Or.inr (Or.inr rfl))),
    (c3_missing_field_raises [] c3pk "X:1" c3NoType).2.1 (by decide) (Or.inl rfl)⟩

end NodeNorm
